import Mathlib

/-!
Verification of the memogram service engine of `hio.core.memoing`
(class `MemoGram`).

The engine is shallowly embedded as a pure state machine:

* Python `str` values are Lean `String`s; Python `bytes`/`bytearray`
  values are `List Nat` (one entry per encoded symbol).  The default
  codec's `str.encode`/`bytes.decode` pair is modelled at code-point
  granularity: `strEncode` maps each character to its Unicode scalar
  value and `bytesDecode` is its partial inverse (failing exactly on
  sequences containing invalid scalar values, as `bytes.decode` fails
  on invalid UTF-8).
* Python dicts keyed by address are insertion-ordered association
  lists (`dictGet`/`dictSet`/`dictDel` reproduce CPython's key-order
  semantics: assignment to an existing key keeps its position, a new
  key goes to the back, deletion removes the key).
* Python deques are Lean lists (append on the right, pop on the left).
* A raised exception is an `Except.error` carrying the state exactly
  as it was at the raise point (Python exceptions do not roll state
  back).
* The abstract transport of the claims (a subclass overriding the
  `send`/`receive` stubs) is modelled by a send behaviour oracle
  `Nat → SendBeh` (indexed by the number of `send` calls made so far)
  together with a queue `recvq` of pending simulated datagrams that
  `receive` pops; the `echo` debugging parameter of the receive stub
  is not modelled.  Every call to `send` is recorded in `sendlog`.
-/

namespace Memoing

/-- Byte strings of the Python code, one `Nat` per encoded symbol. -/
abbrev Bytes := List Nat

/-- Valid Unicode scalar value test (mirrors `Nat.isValidChar`). -/
def validCP (n : Nat) : Bool :=
  decide (n < 0xd800) || (decide (0xdfff < n) && decide (n < 0x110000))

/-- Model of Python `str.encode`: one symbol per character. -/
def strEncode (m : String) : Bytes := m.data.map Char.toNat

/-- Total helper turning decodable bytes back into a string. -/
def decodeStr (bs : Bytes) : String := ⟨bs.map Char.ofNat⟩

/-- Model of Python `bytes.decode`: fails (UnicodeDecodeError) exactly
when some symbol is not a valid scalar value. -/
def bytesDecode (bs : Bytes) : Option String :=
  if bs.all validCP then some (decodeStr bs) else none

/-- Dynamically typed gram values: the grams put on `.txgs` are
normally `str`, but `gramit` accepts anything, so a gram is either a
text string or raw bytes. -/
inductive PyData : Type where
  | str (s : String)
  | bytes (b : Bytes)
deriving DecidableEq, Repr

/-- Python exceptions that the modelled code can raise. -/
inductive PyErr : Type where
  | attributeError
  | unboundLocalError
  | unicodeDecodeError
  | keyError
  | socketError (eno : Nat)
deriving DecidableEq, Repr

/-- Model of calling `.encode()` on a gram taken from `.txgs`:
`str` encodes, `bytes`/`bytearray` has no `encode` attribute. -/
def pyEncode : PyData → Except PyErr Bytes
  | .str m => .ok (strEncode m)
  | .bytes _ => .error .attributeError

/-- Linux errno values used by the peer-unreachable classification. -/
def ECONNREFUSED : Nat := 111
def ECONNRESET : Nat := 104
def ENETRESET : Nat := 102
def ENETUNREACH : Nat := 101
def EHOSTUNREACH : Nat := 113
def ENETDOWN : Nat := 100
def EHOSTDOWN : Nat := 112
def ETIMEDOUT : Nat := 110
def ETIME : Nat := 62

/-- The peer-unreachable errno class tested by `_serviceOnceTxGrams`. -/
def peerUnreach : List Nat :=
  [ECONNREFUSED, ECONNRESET, ENETRESET, ENETUNREACH, EHOSTUNREACH,
   ENETDOWN, EHOSTDOWN, ETIMEDOUT, ETIME]

/-- Behaviour of one `send` call of the simulated transport: return
the full length, return a fixed count, or raise `socket.error` with
the given errno. -/
inductive SendBeh : Type where
  | sentAll
  | sent (c : Nat)
  | raiseErr (eno : Nat)
deriving DecidableEq, Repr

/-- Insertion-ordered dict lookup (first matching key). -/
def dictGet {α : Type} : List (String × α) → String → Option α
  | [], _ => none
  | (k, v) :: rest, key => if k = key then some v else dictGet rest key

/-- Insertion-ordered dict assignment: update an existing key in
place, otherwise append the new key at the back. -/
def dictSet {α : Type} : List (String × α) → String → α → List (String × α)
  | [], key, v => [(key, v)]
  | (k, w) :: rest, key, v =>
      if k = key then (k, v) :: rest else (k, w) :: dictSet rest key v

/-- Insertion-ordered dict deletion (first matching key). -/
def dictDel {α : Type} : List (String × α) → String → List (String × α)
  | [], _ => []
  | (k, v) :: rest, key => if k = key then rest else (k, v) :: dictDel rest key

/-- State of one `MemoGram` mixin instance together with its simulated
transport.  The five engine containers are `rxgs`, `rxms`, `txms`,
`txgs` and `txbs` as in the source; `recvq`, `sendn` and `sendlog`
model the surrounding transport (datagrams pending receipt, number of
`send` calls made, and the `(bytes, dst)` arguments of each call). -/
structure St : Type where
  opened : Bool
  rxgs : List (String × List Bytes)
  rxms : List (String × String)
  txms : List (String × String)
  txgs : List (PyData × String)
  txbs : Bytes × Option String
  recvq : List (Bytes × String)
  sendn : Nat
  sendlog : List (Bytes × String)
deriving DecidableEq, Repr

/-- State produced by `MemoGram.__init__`: empty containers, idle
transmit buffer, transport closed; `recvq` holds the datagrams the
simulated transport will deliver. -/
def construct (recvq : List (Bytes × String)) : St :=
  { opened := false, rxgs := [], rxms := [], txms := [], txgs := [],
    txbs := ([], none), recvq := recvq, sendn := 0, sendlog := [] }

/-- Model of `open` on the stub transport: sets `opened`. -/
def openTransport (s : St) : St := { s with opened := true }

/-- Model of `close`: clears `opened`. -/
def closeTransport (s : St) : St := { s with opened := false }

/-- Model of `memoit`: append the `(memo, dst)` duple to `.txms`. -/
def memoit (memo dst : String) (s : St) : St :=
  { s with txms := s.txms ++ [(memo, dst)] }

/-- Model of `gramit`: append the `(gram, dst)` duple to `.txgs`. -/
def gramit (gram : PyData) (dst : String) (s : St) : St :=
  { s with txgs := s.txgs ++ [(gram, dst)] }

/-- Model of the placeholder `segment`: the whole memo is one gram. -/
def segment (memo : String) : List String := [memo]

/-- Helper for `_serviceOneReceived`: append a gram under its source
key, creating the key (at the back of the dict order) if absent. -/
def rxgsAdd (d : List (String × List Bytes)) (src : String) (g : Bytes) :
    List (String × List Bytes) :=
  match dictGet d src with
  | some q => dictSet d src (q ++ [g])
  | none => d ++ [(src, [g])]

/-- Model of `_serviceOneReceived`: pop one simulated datagram; an
empty reply (or an empty gram, which is indistinguishable from the
no-data sentinel `(b'', None)`) reports `False`; otherwise the gram is
queued under its source and `True` is reported. -/
def serviceOneReceived (s : St) : Bool × St :=
  match s.recvq with
  | [] => (false, s)
  | (g, src) :: rest =>
      let s1 := { s with recvq := rest }
      if g.isEmpty then (false, s1)
      else (true, { s1 with rxgs := rxgsAdd s1.rxgs src g })

/-- Model of `serviceReceivesOnce`: one receive, gated on `opened`. -/
def serviceReceivesOnce (s : St) : St :=
  if s.opened then (serviceOneReceived s).2 else s

theorem serviceOneReceived_true {s s' : St}
    (h : serviceOneReceived s = (true, s')) :
    s'.recvq.length < s.recvq.length := by
  unfold serviceOneReceived at h
  cases hr : s.recvq with
  | nil => rw [hr] at h; simp at h
  | cons p rest =>
      obtain ⟨g, src⟩ := p
      rw [hr] at h
      by_cases hg : g.isEmpty
      · simp [hg] at h
      · simp only [hg, Bool.false_eq_true, if_neg, if_false] at h
        rw [Prod.mk.injEq] at h
        obtain ⟨-, h2⟩ := h
        subst h2
        simp [hr]

/-- Model of `serviceReceives` (greedy): receive until no data. -/
def serviceReceives (s : St) : St :=
  if s.opened then
    match h : serviceOneReceived s with
    | (true, s') => serviceReceives s'
    | (false, s') => s'
  else s
termination_by s.recvq.length
decreasing_by
  exact serviceOneReceived_true h

/-- Model of the placeholder `desegment` on one source's gram deque:
pop the oldest gram and decode it as a whole memo; an empty deque
means incomplete (`IndexError` is caught, returning `None`).  The
returned list is the deque after the call — on a decode failure the
gram has already been popped when the exception propagates. -/
def desegment (grams : List Bytes) : Except PyErr (Option String) × List Bytes :=
  match grams with
  | [] => (.ok none, [])
  | g :: rest =>
      match bytesDecode g with
      | some m => (.ok (some m), rest)
      | none => (.error .unicodeDecodeError, rest)

/-- One source's slice of the `_serviceOnceRxGrams` loop body:
desegment the source's deque, append a produced memo to `.rxms`,
delete the key if its deque drained, and report whether a memo was
produced while more grams remain (the per-source `goods` flag).  A
missing key would raise `KeyError`; a decode failure propagates after
the deque was mutated and before the empty key could be deleted. -/
def procSrc (src : String) (s : St) : Except PyErr Bool × St :=
  match dictGet s.rxgs src with
  | none => (.error .keyError, s)
  | some q =>
      match desegment q with
      | (.error e, q') => (.error e, { s with rxgs := dictSet s.rxgs src q' })
      | (.ok memo, q') =>
          let s1 := match memo with
                    | some m => { s with rxms := s.rxms ++ [(m, src)] }
                    | none => s
          let s2 := if q'.isEmpty
                    then { s1 with rxgs := dictDel s1.rxgs src }
                    else { s1 with rxgs := dictSet s1.rxgs src q' }
          (.ok (memo.isSome && !q'.isEmpty), s2)

/-- The `_serviceOnceRxGrams` loop over a snapshot of source keys,
or-accumulating the `goods` flags (Python's `any(goods)`). -/
def rxPassGo : List String → St → Except PyErr Bool × St
  | [], s => (.ok false, s)
  | src :: rest, s =>
      match procSrc src s with
      | (.error e, s1) => (.error e, s1)
      | (.ok g, s1) =>
          match rxPassGo rest s1 with
          | (.error e, s2) => (.error e, s2)
          | (.ok b, s2) => (.ok (g || b), s2)

/-- Model of `_serviceOnceRxGrams`: one pass over the snapshot of the
current sources. -/
def serviceOnceRxGrams (s : St) : Except PyErr Bool × St :=
  rxPassGo (s.rxgs.map (fun p => p.1)) s

/-- Model of `serviceRxGramsOnce`: one pass, only if `.rxgs` is
non-empty (not gated on `opened`). -/
def serviceRxGramsOnce (s : St) : Except PyErr Unit × St :=
  if s.rxgs ≠ [] then
    match serviceOnceRxGrams s with
    | (.error e, s') => (.error e, s')
    | (.ok _, s') => (.ok (), s')
  else (.ok (), s)

/-- Total queued grams plus number of source keys in a gram store. -/
def listMeasure : List (String × List Bytes) → Nat
  | [] => 0
  | (_, q) :: rest => q.length + 1 + listMeasure rest

/-- Measure for the greedy reassembly loop. -/
def rxMeasure (s : St) : Nat := listMeasure s.rxgs

theorem dictGet_mem {α : Type} {d : List (String × α)} {k : String} {v : α}
    (h : dictGet d k = some v) : (k, v) ∈ d := by
  induction d with
  | nil => simp [dictGet] at h
  | cons p rest ih =>
      obtain ⟨k', v'⟩ := p
      simp only [dictGet] at h
      split at h
      · cases h
        rename_i hk
        subst hk
        exact List.mem_cons_self _ _
      · exact List.mem_cons_of_mem _ (ih h)

theorem dictSet_measure {d : List (String × List Bytes)} {k : String}
    {q : List Bytes} (h : dictGet d k = some q) (v : List Bytes) :
    listMeasure (dictSet d k v) + q.length = listMeasure d + v.length := by
  induction d with
  | nil => simp [dictGet] at h
  | cons p rest ih =>
      obtain ⟨k', v'⟩ := p
      simp only [dictGet] at h
      by_cases hk : k' = k
      · rw [if_pos hk] at h
        cases h
        simp [dictSet, if_pos hk, listMeasure]
        omega
      · rw [if_neg hk] at h
        have := ih h
        simp [dictSet, if_neg hk, listMeasure]
        omega

theorem dictDel_measure {d : List (String × List Bytes)} {k : String}
    {q : List Bytes} (h : dictGet d k = some q) :
    listMeasure (dictDel d k) + q.length + 1 = listMeasure d := by
  induction d with
  | nil => simp [dictGet] at h
  | cons p rest ih =>
      obtain ⟨k', v'⟩ := p
      simp only [dictGet] at h
      by_cases hk : k' = k
      · rw [if_pos hk] at h
        cases h
        simp [dictDel, if_pos hk, listMeasure]
        omega
      · rw [if_neg hk] at h
        have := ih h
        simp [dictDel, if_neg hk, listMeasure]
        omega

theorem procSrc_measure_le (src : String) (s : St) :
    rxMeasure (procSrc src s).2 ≤ rxMeasure s := by
  unfold procSrc
  cases hg : dictGet s.rxgs src with
  | none => simp [rxMeasure]
  | some q =>
      cases q with
      | nil =>
          have := dictDel_measure (d := s.rxgs) hg
          simp at this
          simp [desegment, rxMeasure]
          omega
      | cons g rest =>
          cases hd : bytesDecode g with
          | none =>
              have := dictSet_measure (d := s.rxgs) hg rest
              simp at this
              simp [desegment, hd, rxMeasure]
              omega
          | some m =>
              by_cases hre : rest.isEmpty
              · have hr : rest = [] := by
                  cases rest
                  · rfl
                  · simp at hre
                subst hr
                have := dictDel_measure (d := s.rxgs) hg
                simp at this
                simp [desegment, hd, rxMeasure, hre]
                omega
              · have := dictSet_measure (d := s.rxgs) hg rest
                simp at this
                simp [desegment, hd, rxMeasure, hre]
                omega

theorem procSrc_measure_lt {src : String} {s : St} {q : List Bytes}
    (hg : dictGet s.rxgs src = some q) :
    rxMeasure (procSrc src s).2 < rxMeasure s := by
  unfold procSrc
  rw [hg]
  cases q with
  | nil =>
      have := dictDel_measure (d := s.rxgs) hg
      simp at this
      simp [desegment, rxMeasure]
      omega
  | cons g rest =>
      cases hd : bytesDecode g with
      | none =>
          have := dictSet_measure (d := s.rxgs) hg rest
          simp at this
          simp [desegment, hd, rxMeasure]
          omega
      | some m =>
          by_cases hre : rest.isEmpty
          · have hr : rest = [] := by
              cases rest
              · rfl
              · simp at hre
            subst hr
            have := dictDel_measure (d := s.rxgs) hg
            simp at this
            simp [desegment, hd, rxMeasure, hre]
            omega
          · have := dictSet_measure (d := s.rxgs) hg rest
            simp at this
            simp [desegment, hd, rxMeasure, hre]
            omega

theorem rxPassGo_measure_le (srcs : List String) (s : St) :
    rxMeasure (rxPassGo srcs s).2 ≤ rxMeasure s := by
  induction srcs generalizing s with
  | nil => simp [rxPassGo]
  | cons src rest ih =>
      simp only [rxPassGo]
      have h1 := procSrc_measure_le src s
      cases hp : procSrc src s with
      | mk r s1 =>
          rw [hp] at h1
          cases r with
          | error e => simpa using h1
          | ok g =>
              dsimp only
              have h2 := ih s1
              cases hq : rxPassGo rest s1 with
              | mk r2 s2 =>
                  rw [hq] at h2
                  cases r2 with
                  | error e => simp at h1 h2 ⊢; omega
                  | ok b => simp at h1 h2 ⊢; omega

theorem serviceOnceRxGrams_measure {s : St} (h : s.rxgs ≠ []) :
    rxMeasure (serviceOnceRxGrams s).2 < rxMeasure s := by
  unfold serviceOnceRxGrams
  cases hr : s.rxgs with
  | nil => exact absurd hr h
  | cons p rest =>
      obtain ⟨src, q⟩ := p
      have hg : dictGet s.rxgs src = some q := by
        rw [hr]; simp [dictGet]
      simp only [hr, List.map, rxPassGo]
      have h1 := procSrc_measure_lt hg
      cases hp : procSrc src s with
      | mk r s1 =>
          rw [hp] at h1
          cases r with
          | error e => simpa using h1
          | ok g =>
              dsimp only
              have h2 := rxPassGo_measure_le (rest.map (fun p => p.1)) s1
              cases hq : rxPassGo (rest.map (fun p => p.1)) s1 with
              | mk r2 s2 =>
                  rw [hq] at h2
                  cases r2 with
                  | error e => simp at h1 h2 ⊢; omega
                  | ok b => simp at h1 h2 ⊢; omega

/-- Model of `serviceRxGrams` (greedy): keep making passes while
`.rxgs` is non-empty and the last pass reported progress. -/
def serviceRxGrams (s : St) : Except PyErr Unit × St :=
  if h : s.rxgs ≠ [] then
    match hp : serviceOnceRxGrams s with
    | (.error e, s') => (.error e, s')
    | (.ok false, s') => (.ok (), s')
    | (.ok true, s') => serviceRxGrams s'
  else (.ok (), s)
termination_by rxMeasure s
decreasing_by
  have := serviceOnceRxGrams_measure h
  rw [hp] at this
  simpa using this

/-- Model of `serviceRxMemosOnce`: pop one received memo, the
`IndexError` on an empty deque being caught. -/
def serviceRxMemosOnce (s : St) : St :=
  match s.rxms with
  | [] => s
  | _ :: rest => { s with rxms := rest }

/-- Model of `serviceRxMemos` (greedy): pop all received memos. -/
def serviceRxMemos (s : St) : St :=
  match h : s.rxms with
  | [] => s
  | _ :: rest => serviceRxMemos { s with rxms := rest }
termination_by s.rxms.length
decreasing_by
  simp [h]

/-- Model of `serviceAllRxOnce`: receive, reassembly and memo drain,
one step each. -/
def serviceAllRxOnce (s : St) : Except PyErr Unit × St :=
  let s1 := serviceReceivesOnce s
  match serviceRxGramsOnce s1 with
  | (.error e, s2) => (.error e, s2)
  | (.ok _, s2) => (.ok (), serviceRxMemosOnce s2)

/-- Model of `serviceAllRx`: greedy receive, greedy reassembly and
greedy memo drain in order. -/
def serviceAllRx (s : St) : Except PyErr Unit × St :=
  let s1 := serviceReceives s
  match serviceRxGrams s1 with
  | (.error e, s2) => (.error e, s2)
  | (.ok _, s2) => (.ok (), serviceRxMemos s2)

/-- Model of `_serviceOneTxMemo` on a non-empty `.txms` (the greedy
and once services guard the `IndexError` case): segment the memo and
append its grams with the destination to `.txgs`. -/
def serviceTxMemosOnce (s : St) : St :=
  match s.txms with
  | [] => s
  | (memo, dst) :: rest =>
      { s with txms := rest,
               txgs := s.txgs ++ (segment memo).map (fun g => (PyData.str g, dst)) }

/-- Model of `serviceTxMemos` (greedy): segment all queued memos. -/
def serviceTxMemos (s : St) : St :=
  match h : s.txms with
  | [] => s
  | (memo, dst) :: rest =>
      serviceTxMemos
        { s with txms := rest,
                 txgs := s.txgs ++ (segment memo).map (fun g => (PyData.str g, dst)) }
termination_by s.txms.length
decreasing_by
  simp [h]

/-- Model of one `send` call of the simulated transport: record the
call and apply the oracle's behaviour for this call index. -/
def sendStep (beh : Nat → SendBeh) (bs : Bytes) (d : String) (s : St) :
    Except PyErr Nat × St :=
  match beh s.sendn with
  | .sentAll =>
      (.ok bs.length, { s with sendn := s.sendn + 1, sendlog := s.sendlog ++ [(bs, d)] })
  | .sent c =>
      (.ok c, { s with sendn := s.sendn + 1, sendlog := s.sendlog ++ [(bs, d)] })
  | .raiseErr e =>
      (.error (.socketError e), { s with sendn := s.sendn + 1, sendlog := s.sendlog ++ [(bs, d)] })

/-- Tail of `_serviceOnceTxGrams` after a successful send: drop the
sent prefix, idle the buffer when it drained, and report progress. -/
def txFinish (bs : Bytes) (cnt : Nat) (d : String) (s1 : St) :
    Except PyErr Bool × St :=
  if (bs.drop cnt).isEmpty then (.ok true, { s1 with txbs := (bs.drop cnt, none) })
  else (.ok false, { s1 with txbs := (bs.drop cnt, some d) })

/-- Send attempt of `_serviceOnceTxGrams` on buffer `bs` bound for
`d`.  On a peer-unreachable `socket.error` the handler logs and
resets `.txbs` to the idle sentinel, but control then falls through
to `del gram[:cnt]` whose `cnt` was never assigned, so the pass
raises `UnboundLocalError`.  Any other `socket.error` is re-raised. -/
def txSendPart (beh : Nat → SendBeh) (bs : Bytes) (d : String) (s : St) :
    Except PyErr Bool × St :=
  match sendStep beh bs d s with
  | (.ok cnt, s1) => txFinish bs cnt d s1
  | (.error (.socketError e), s1) =>
      if e ∈ peerUnreach then
        (.error .unboundLocalError, { s1 with txbs := ([], none) })
      else (.error (.socketError e), s1)
  | (.error e, s1) => (.error e, s1)

/-- Model of `_serviceOnceTxGrams`: when the buffer is idle, pop the
next gram (reporting `False` when the queue is empty) and encode it
(the pop precedes the `.encode()` call, so a bytes-valued gram leaves
the queue before the `AttributeError` propagates); then attempt one
send of the buffered bytes. -/
def serviceOnceTxGrams (beh : Nat → SendBeh) (s : St) : Except PyErr Bool × St :=
  match s.txbs.2 with
  | none =>
      match s.txgs with
      | [] => (.ok false, s)
      | (g, d) :: rest =>
          match pyEncode g with
          | .error e => (.error e, { s with txgs := rest })
          | .ok bs => txSendPart beh bs d { s with txgs := rest }
  | some d => txSendPart beh s.txbs.1 d s

/-- Model of `serviceTxGramsOnce`: one transmit pass, gated on
`opened` and on `.txgs` being non-empty. -/
def serviceTxGramsOnce (beh : Nat → SendBeh) (s : St) : Except PyErr Unit × St :=
  if s.opened = true ∧ s.txgs ≠ [] then
    match serviceOnceTxGrams beh s with
    | (.error e, s') => (.error e, s')
    | (.ok _, s') => (.ok (), s')
  else (.ok (), s)

/-- Measure for the greedy transmit loop. -/
def txMeasure (s : St) : Nat :=
  2 * s.txgs.length + (match s.txbs.2 with | some _ => 1 | none => 0)

theorem txSendPart_ok_true {beh : Nat → SendBeh} {bs : Bytes} {d : String}
    {s s' : St} (h : txSendPart beh bs d s = (.ok true, s')) :
    s'.txgs = s.txgs ∧ s'.txbs.2 = none := by
  cases hb : beh s.sendn with
  | sentAll =>
      simp only [txSendPart, sendStep, hb, txFinish] at h
      split at h
      · rw [Prod.mk.injEq] at h
        obtain ⟨-, h2⟩ := h
        subst h2
        exact ⟨rfl, rfl⟩
      · simp at h
  | sent c =>
      simp only [txSendPart, sendStep, hb, txFinish] at h
      split at h
      · rw [Prod.mk.injEq] at h
        obtain ⟨-, h2⟩ := h
        subst h2
        exact ⟨rfl, rfl⟩
      · simp at h
  | raiseErr e =>
      simp only [txSendPart, sendStep, hb] at h
      split at h <;> simp at h

theorem serviceOnceTxGrams_measure {beh : Nat → SendBeh} {s s' : St}
    (h : serviceOnceTxGrams beh s = (.ok true, s')) :
    txMeasure s' < txMeasure s := by
  unfold serviceOnceTxGrams at h
  cases hb : s.txbs.2 with
  | none =>
      rw [hb] at h
      cases hg : s.txgs with
      | nil => rw [hg] at h; simp at h
      | cons p rest =>
          obtain ⟨g, d⟩ := p
          rw [hg] at h
          dsimp only at h
          cases he : pyEncode g with
          | error e => rw [he] at h; simp at h
          | ok bs =>
              rw [he] at h
              simp only [] at h
              have := txSendPart_ok_true h
              simp only [txMeasure, hb, hg, this.1, this.2]
              simp [List.length_cons]
  | some d =>
      rw [hb] at h
      dsimp only at h
      have := txSendPart_ok_true h
      simp [txMeasure, hb, this.1, this.2]

/-- Model of `serviceTxGrams` (greedy): keep making transmit passes
while open and `.txgs` is non-empty, stopping when a pass reports no
progress. -/
def serviceTxGrams (beh : Nat → SendBeh) (s : St) : Except PyErr Unit × St :=
  if h : s.opened = true ∧ s.txgs ≠ [] then
    match hp : serviceOnceTxGrams beh s with
    | (.error e, s') => (.error e, s')
    | (.ok false, s') => (.ok (), s')
    | (.ok true, s') => serviceTxGrams beh s'
  else (.ok (), s)
termination_by txMeasure s
decreasing_by
  exact serviceOnceTxGrams_measure hp

/-- Model of `serviceAllTxOnce`: one segmentation step then one
transmit pass. -/
def serviceAllTxOnce (beh : Nat → SendBeh) (s : St) : Except PyErr Unit × St :=
  serviceTxGramsOnce beh (serviceTxMemosOnce s)

/-- Model of `serviceAllTx`: greedy segmentation then greedy
transmission. -/
def serviceAllTx (beh : Nat → SendBeh) (s : St) : Except PyErr Unit × St :=
  serviceTxGrams beh (serviceTxMemos s)

/-- Model of `serviceAll`: greedy receive side then greedy transmit
side (an exception on the receive side aborts the transmit side). -/
def serviceAll (beh : Nat → SendBeh) (s : St) : Except PyErr Unit × St :=
  match serviceAllRx s with
  | (.error e, s1) => (.error e, s1)
  | (.ok _, s1) => serviceAllTx beh s1

/-- Model of `serviceLocal`: greedy receives then greedy transmit of
queued grams. -/
def serviceLocal (beh : Nat → SendBeh) (s : St) : Except PyErr Unit × St :=
  serviceTxGrams beh (serviceReceives s)

/-- Transport whose send always reports the full byte count. -/
def behAll : Nat → SendBeh := fun _ => SendBeh.sentAll

/-- Transport whose send always raises ECONNREFUSED. -/
def behRefuse : Nat → SendBeh := fun _ => SendBeh.raiseErr ECONNREFUSED

/-- Concrete memo and address literals used in witnesses. -/
def aStr : String := "a"
def bStr : String := "b"
def xStr : String := "x"
def yStr : String := "y"
def sStr : String := "s"
def emptyStr : String := ""

/-- Loopback pipeline of the round-trip property: enqueue one memo,
drain segmentation and transmission greedily over a transport that
always sends fully, deliver every fully sent gram back as a received
datagram from the destination address, then run the greedy receive
and reassembly services. -/
def loopbackRun (M D : String) : St :=
  let s2 := (serviceTxGrams behAll
    (serviceTxMemos (memoit M D (openTransport (construct []))))).2
  (serviceRxGrams (serviceReceives { s2 with recvq := s2.sendlog })).2

/-- Single in-flight slot contract for one atomic service step from
`s` to a successor: the buffer destination is the idle sentinel or
exactly one destination; while the buffer is occupied no gram is
removed from the Gram Transmit Queue (grams are only appended behind
it) and the buffered bytes only shrink to a suffix of the same
occupancy, keeping the same destination until the buffer resets to
idle; from an idle buffer, the buffer either stays untouched or is
loaded from the head gram of the queue, holding a suffix of that
single gram's encoding for that gram's destination. -/
def TxbsOK (s s' : St) : Prop :=
  (s'.txbs.2 = none ∨ ∃ d, s'.txbs.2 = some d) ∧
  (∀ d, s.txbs.2 = some d →
      s.txgs <+: s'.txgs ∧
      s'.txbs.1 <:+ s.txbs.1 ∧ (s'.txbs.2 = some d ∨ s'.txbs = ([], none))) ∧
  (s.txbs.2 = none →
      s'.txbs = s.txbs ∨
      ∃ g d rest, s.txgs = (g, d) :: rest ∧ ∃ bs, pyEncode g = .ok bs ∧
        s'.txbs.1 <:+ bs ∧ (s'.txbs.2 = some d ∨ s'.txbs.2 = none))

/-- One atomic service operation of the engine, at the granularity of
single passes: the greedy transmit services (`serviceTxGrams`,
`serviceAllTx`, `serviceAll`, `serviceLocal`, `serviceAllTxOnce`)
iterate `serviceTxMemosOnce`/`serviceOnceTxGrams` steps, so the
states they pass through are exactly the states reached by these
steps.  `arrive` models the transport placing one more datagram in
the receive queue. -/
inductive StepA : St → St → Prop where
  | opn (s : St) : StepA s (openTransport s)
  | cls (s : St) : StepA s (closeTransport s)
  | memo (m d : String) (s : St) : StepA s (memoit m d s)
  | gram (g : PyData) (d : String) (s : St) : StepA s (gramit g d s)
  | arrive (g : Bytes) (src : String) (s : St) :
      StepA s { s with recvq := s.recvq ++ [(g, src)] }
  | recvOne (s : St) : StepA s (serviceOneReceived s).2
  | recvOnce (s : St) : StepA s (serviceReceivesOnce s)
  | recvAll (s : St) : StepA s (serviceReceives s)
  | rxgOnce (s : St) : StepA s (serviceOnceRxGrams s).2
  | rxgOnceSvc (s : St) : StepA s (serviceRxGramsOnce s).2
  | rxgAll (s : St) : StepA s (serviceRxGrams s).2
  | rxmOnce (s : St) : StepA s (serviceRxMemosOnce s)
  | rxmAll (s : St) : StepA s (serviceRxMemos s)
  | allRxOnce (s : St) : StepA s (serviceAllRxOnce s).2
  | allRx (s : St) : StepA s (serviceAllRx s).2
  | txmOnce (s : St) : StepA s (serviceTxMemosOnce s)
  | txmAll (s : St) : StepA s (serviceTxMemos s)
  | txgOnce (beh : Nat → SendBeh) (s : St) : StepA s (serviceOnceTxGrams beh s).2
  | txgOnceSvc (beh : Nat → SendBeh) (s : St) : StepA s (serviceTxGramsOnce beh s).2

/-- Engine state as produced by construction: all five containers
empty and the transmit buffer idle (the transport side is
unconstrained). -/
def Init (s : St) : Prop :=
  s.rxgs = [] ∧ s.rxms = [] ∧ s.txms = [] ∧ s.txgs = [] ∧ s.txbs = ([], none)

/-- States reachable from construction by atomic service steps. -/
def Reach (s : St) : Prop :=
  ∃ s0, Init s0 ∧ Relation.ReflTransGen StepA s0 s

/-- Receive-side service operations, with datagram arrivals restricted
to grams the default codec can decode. -/
inductive StepRx : St → St → Prop where
  | arrive (g : Bytes) (src : String) (s : St) (h : (bytesDecode g).isSome) :
      StepRx s { s with recvq := s.recvq ++ [(g, src)] }
  | recvOne (s : St) : StepRx s (serviceOneReceived s).2
  | recvOnce (s : St) : StepRx s (serviceReceivesOnce s)
  | recvAll (s : St) : StepRx s (serviceReceives s)
  | rxgOnce (s : St) : StepRx s (serviceOnceRxGrams s).2
  | rxgOnceSvc (s : St) : StepRx s (serviceRxGramsOnce s).2
  | rxgAll (s : St) : StepRx s (serviceRxGrams s).2
  | rxmOnce (s : St) : StepRx s (serviceRxMemosOnce s)
  | rxmAll (s : St) : StepRx s (serviceRxMemos s)
  | allRxOnce (s : St) : StepRx s (serviceAllRxOnce s).2
  | allRx (s : St) : StepRx s (serviceAllRx s).2

/-- Receive-side invariant: every stored gram deque is non-empty and
holds only decodable grams, and every pending datagram is decodable. -/
def GoodRx (s : St) : Prop :=
  (∀ p ∈ s.rxgs, p.2 ≠ [] ∧ ∀ g ∈ p.2, (bytesDecode g).isSome) ∧
  (∀ p ∈ s.recvq, (bytesDecode p.1).isSome)

/-- States reachable from construction (gram store empty, pending
datagrams decodable) by receive-side service operations. -/
def ReachRx (s : St) : Prop :=
  ∃ s0, s0.rxgs = [] ∧ (∀ p ∈ s0.recvq, (bytesDecode p.1).isSome) ∧
    Relation.ReflTransGen StepRx s0 s

theorem validCP_char (c : Char) : validCP c.toNat = true := by
  have h : Nat.isValidChar c.toNat := c.valid
  unfold Nat.isValidChar at h
  simp [validCP]
  omega

theorem bytesDecode_strEncode (m : String) : bytesDecode (strEncode m) = some m := by
  unfold bytesDecode strEncode decodeStr
  rw [if_pos]
  · rw [List.map_map]
    have h2 : m.data.map (Char.ofNat ∘ Char.toNat) = m.data := by
      apply List.map_congr_left ?_ |>.trans (List.map_id m.data)
      intro c _
      exact Char.ofNat_toNat c
    rw [h2]
  · rw [List.all_eq_true]
    intro n hn
    rw [List.mem_map] at hn
    obtain ⟨c, _, rfl⟩ := hn
    exact validCP_char c

theorem bytesDecode_isSome {g : Bytes} (h : (bytesDecode g).isSome) :
    bytesDecode g = some (decodeStr g) := by
  unfold bytesDecode at h ⊢
  split at h
  · rw [if_pos]
    assumption
  · simp at h

theorem strEncode_ne_nil {m : String} (h : m ≠ emptyStr) : strEncode m ≠ [] := by
  unfold strEncode
  intro hc
  apply h
  rw [List.map_eq_nil_iff] at hc
  cases m with
  | mk data => cases hc; rfl

theorem decodeStr_strEncode (m : String) : decodeStr (strEncode m) = m := by
  have h1 := bytesDecode_strEncode m
  have h2 := bytesDecode_isSome (g := strEncode m) (by rw [h1]; rfl)
  rw [h1] at h2
  exact (Option.some_inj.mp h2).symm

theorem serviceReceives_step_true {s s1 : St} (hop : s.opened = true)
    (hp : serviceOneReceived s = (true, s1)) :
    serviceReceives s = serviceReceives s1 := by
  rw [serviceReceives, if_pos hop]
  split
  · next s2 heq =>
      rw [hp] at heq
      injection heq with h1 h2
      subst h2
      rfl
  · next s2 heq =>
      rw [hp] at heq
      injection heq with h1 h2
      simp at h1

theorem serviceReceives_step_false {s s1 : St} (hop : s.opened = true)
    (hp : serviceOneReceived s = (false, s1)) :
    serviceReceives s = s1 := by
  rw [serviceReceives, if_pos hop]
  split
  · next s2 heq =>
      rw [hp] at heq
      injection heq with h1 h2
      simp at h1
  · next s2 heq =>
      rw [hp] at heq
      injection heq with h1 h2
      subst h2
      rfl

theorem serviceRxGrams_step_error {s s1 : St} {e : PyErr} (hc : s.rxgs ≠ [])
    (hp : serviceOnceRxGrams s = (.error e, s1)) :
    serviceRxGrams s = (.error e, s1) := by
  rw [serviceRxGrams, dif_pos hc]
  split
  · next e2 s2 heq =>
      rw [hp] at heq
      injection heq with h1 h2
      injection h1 with h1
      subst h1
      subst h2
      rfl
  · next s2 heq =>
      rw [hp] at heq
      injection heq with h1 h2
      simp at h1
  · next s2 heq =>
      rw [hp] at heq
      injection heq with h1 h2
      simp at h1

theorem serviceRxGrams_step_false {s s1 : St} (hc : s.rxgs ≠ [])
    (hp : serviceOnceRxGrams s = (.ok false, s1)) :
    serviceRxGrams s = (.ok (), s1) := by
  rw [serviceRxGrams, dif_pos hc]
  split
  · next e2 s2 heq =>
      rw [hp] at heq
      injection heq with h1 h2
      simp at h1
  · next s2 heq =>
      rw [hp] at heq
      injection heq with h1 h2
      subst h2
      rfl
  · next s2 heq =>
      rw [hp] at heq
      injection heq with h1 h2
      simp at h1

theorem serviceRxGrams_step_true {s s1 : St} (hc : s.rxgs ≠ [])
    (hp : serviceOnceRxGrams s = (.ok true, s1)) :
    serviceRxGrams s = serviceRxGrams s1 := by
  rw [serviceRxGrams, dif_pos hc]
  split
  · next e2 s2 heq =>
      rw [hp] at heq
      injection heq with h1 h2
      simp at h1
  · next s2 heq =>
      rw [hp] at heq
      injection heq with h1 h2
      simp at h1
  · next s2 heq =>
      rw [hp] at heq
      injection heq with h1 h2
      subst h2
      rfl

theorem serviceTxGrams_step_error {beh : Nat → SendBeh} {s s1 : St} {e : PyErr}
    (hc : s.opened = true ∧ s.txgs ≠ [])
    (hp : serviceOnceTxGrams beh s = (.error e, s1)) :
    serviceTxGrams beh s = (.error e, s1) := by
  rw [serviceTxGrams, dif_pos hc]
  split
  · next e2 s2 heq =>
      rw [hp] at heq
      injection heq with h1 h2
      injection h1 with h1
      subst h1
      subst h2
      rfl
  · next s2 heq =>
      rw [hp] at heq
      injection heq with h1 h2
      simp at h1
  · next s2 heq =>
      rw [hp] at heq
      injection heq with h1 h2
      simp at h1

theorem serviceTxGrams_step_false {beh : Nat → SendBeh} {s s1 : St}
    (hc : s.opened = true ∧ s.txgs ≠ [])
    (hp : serviceOnceTxGrams beh s = (.ok false, s1)) :
    serviceTxGrams beh s = (.ok (), s1) := by
  rw [serviceTxGrams, dif_pos hc]
  split
  · next e2 s2 heq =>
      rw [hp] at heq
      injection heq with h1 h2
      simp at h1
  · next s2 heq =>
      rw [hp] at heq
      injection heq with h1 h2
      subst h2
      rfl
  · next s2 heq =>
      rw [hp] at heq
      injection heq with h1 h2
      simp at h1

theorem serviceTxGrams_step_true {beh : Nat → SendBeh} {s s1 : St}
    (hc : s.opened = true ∧ s.txgs ≠ [])
    (hp : serviceOnceTxGrams beh s = (.ok true, s1)) :
    serviceTxGrams beh s = serviceTxGrams beh s1 := by
  rw [serviceTxGrams, dif_pos hc]
  split
  · next e2 s2 heq =>
      rw [hp] at heq
      injection heq with h1 h2
      simp at h1
  · next s2 heq =>
      rw [hp] at heq
      injection heq with h1 h2
      simp at h1
  · next s2 heq =>
      rw [hp] at heq
      injection heq with h1 h2
      subst h2
      rfl

theorem serviceTxMemos_drive (ms : List (String × String)) :
    ∀ s : St, s.txms = ms →
    serviceTxMemos s
      = { s with txms := [], txgs := s.txgs ++ ms.map (fun p => (PyData.str p.1, p.2)) } := by
  induction ms with
  | nil =>
      intro s hs
      rw [serviceTxMemos]
      split
      · simp only [List.map_nil, List.append_nil]
        rw [← hs]
      · next heq =>
          rw [hs] at heq
          simp at heq
  | cons p rest ih =>
      intro s hs
      obtain ⟨memo, dst⟩ := p
      rw [serviceTxMemos]
      split
      · next heq =>
          rw [hs] at heq
          simp at heq
      · next memo2 dst2 rest2 heq =>
          rw [hs] at heq
          injection heq with heq1 heq2
          injection heq1 with heq1a heq1b
          subst heq1a
          subst heq1b
          subst heq2
          rw [ih _ rfl]
          simp [segment, List.append_assoc]

theorem serviceOnceTxGrams_strAll {s : St} (m d : String)
    (rest : List (PyData × String)) (hb : s.txbs.2 = none)
    (hg : s.txgs = (PyData.str m, d) :: rest) :
    serviceOnceTxGrams behAll s = (.ok true,
      { s with txgs := rest, txbs := ([], none), sendn := s.sendn + 1,
               sendlog := s.sendlog ++ [(strEncode m, d)] }) := by
  unfold serviceOnceTxGrams
  rw [hb, hg]
  dsimp only
  simp [pyEncode, txSendPart, sendStep, behAll, txFinish, List.drop_length]

theorem serviceTxGrams_driveAll (gs : List (String × String)) :
    ∀ s : St, s.opened = true → s.txbs = ([], none) →
      s.txgs = gs.map (fun p => (PyData.str p.1, p.2)) →
      serviceTxGrams behAll s = (.ok (),
        { s with txgs := [], txbs := ([], none), sendn := s.sendn + gs.length,
                 sendlog := s.sendlog ++ gs.map (fun p => (strEncode p.1, p.2)) }) := by
  induction gs with
  | nil =>
      intro s hop htb htg
      simp only [List.map_nil] at htg
      rw [serviceTxGrams, dif_neg (by simp [htg])]
      simp only [List.map_nil, List.append_nil, List.length_nil, Nat.add_zero]
      rw [← htg, ← htb]
  | cons p rest ih =>
      intro s hop htb htg
      obtain ⟨m, d⟩ := p
      have honce := serviceOnceTxGrams_strAll m d
        (rest.map (fun p => (PyData.str p.1, p.2))) (by rw [htb]) (by rw [htg]; rfl)
      rw [serviceTxGrams_step_true ⟨hop, by simp [htg]⟩ honce]
      rw [ih _ (by simpa using hop) (by simp) (by simp)]
      simp only [List.map_cons, List.length_cons, List.append_assoc,
        List.singleton_append]
      have harith : s.sendn + 1 + rest.length = s.sendn + (rest.length + 1) := by
        omega
      rw [harith]

theorem serviceOneReceived_nil {s : St} (hq : s.recvq = []) :
    serviceOneReceived s = (false, s) := by
  unfold serviceOneReceived
  rw [hq]

theorem serviceOneReceived_cons {s : St} {g : Bytes} {src : String}
    {rest : List (Bytes × String)} (hq : s.recvq = (g, src) :: rest)
    (hg : g ≠ []) :
    serviceOneReceived s
      = (true, { s with recvq := rest, rxgs := rxgsAdd s.rxgs src g }) := by
  unfold serviceOneReceived
  rw [hq]
  dsimp only
  rw [if_neg (by simpa using hg)]

theorem serviceReceives_drive1 (gs : List Bytes) (src : String) :
    ∀ (s : St) (acc : List Bytes), s.opened = true → (∀ g ∈ gs, g ≠ []) →
      s.recvq = gs.map (fun g => (g, src)) → s.rxgs = [(src, acc)] →
      serviceReceives s = { s with recvq := [], rxgs := [(src, acc ++ gs)] } := by
  induction gs with
  | nil =>
      intro s acc hop hne hq hr
      simp only [List.map_nil] at hq
      have h0 := serviceOneReceived_nil hq
      rw [serviceReceives_step_false hop h0, List.append_nil, ← hq, ← hr]
  | cons g rest ih =>
      intro s acc hop hne hq hr
      simp only [List.map_cons] at hq
      have h0 := serviceOneReceived_cons hq (hne g (by simp))
      rw [serviceReceives_step_true hop h0]
      have hadd : rxgsAdd s.rxgs src g = [(src, acc ++ [g])] := by
        rw [hr]
        simp [rxgsAdd, dictGet, dictSet]
      rw [ih _ (acc ++ [g]) (by simpa using hop) (fun g2 hg2 => hne g2 (by simp [hg2]))
            (by simp) (by simp [hadd])]
      simp

theorem serviceReceives_drive0 (gs : List Bytes) (src : String) :
    ∀ s : St, s.opened = true → (∀ g ∈ gs, g ≠ []) →
      s.recvq = gs.map (fun g => (g, src)) → s.rxgs = [] →
      serviceReceives s
        = { s with recvq := [], rxgs := if gs.isEmpty then [] else [(src, gs)] } := by
  cases gs with
  | nil =>
      intro s hop hne hq hr
      simp only [List.map_nil] at hq
      have h0 := serviceOneReceived_nil hq
      rw [serviceReceives_step_false hop h0]
      simp only [List.isEmpty_nil, if_pos]
      rw [← hq, ← hr]
  | cons g rest =>
      intro s hop hne hq hr
      simp only [List.map_cons] at hq
      have h0 := serviceOneReceived_cons hq (hne g (by simp))
      rw [serviceReceives_step_true hop h0]
      have hadd : rxgsAdd s.rxgs src g = [(src, [g])] := by
        rw [hr]
        simp [rxgsAdd, dictGet]
      rw [serviceReceives_drive1 rest src _ [g] (by simpa using hop)
            (fun g2 hg2 => hne g2 (by simp [hg2])) (by simp) (by simp [hadd])]
      simp

theorem procSrc_nilq {s : St} {src : String}
    (hq : dictGet s.rxgs src = some []) :
    procSrc src s = (.ok false, { s with rxgs := dictDel s.rxgs src }) := by
  unfold procSrc
  rw [hq]
  simp [desegment]

theorem procSrc_consq {s : St} {src : String} {g : Bytes} {rest : List Bytes}
    (hq : dictGet s.rxgs src = some (g :: rest))
    (hdec : bytesDecode g = some (decodeStr g)) :
    procSrc src s = (.ok !rest.isEmpty,
      if rest.isEmpty
      then { s with rxms := s.rxms ++ [(decodeStr g, src)],
                    rxgs := dictDel s.rxgs src }
      else { s with rxms := s.rxms ++ [(decodeStr g, src)],
                    rxgs := dictSet s.rxgs src rest }) := by
  unfold procSrc
  rw [hq]
  simp only [desegment, hdec]
  by_cases hre : rest.isEmpty
  · simp [hre]
  · simp [hre]

theorem serviceOnceRxGrams_emptyq {s : St} {src : String}
    (hr : s.rxgs = [(src, [])]) :
    serviceOnceRxGrams s = (.ok false, { s with rxgs := [] }) := by
  have hq : dictGet s.rxgs src = some [] := by
    rw [hr]
    simp [dictGet]
  have hp := procSrc_nilq hq
  have hdel : dictDel s.rxgs src = [] := by
    rw [hr]
    simp [dictDel]
  rw [hdel] at hp
  unfold serviceOnceRxGrams
  rw [hr]
  dsimp only [List.map]
  simp only [rxPassGo, hp]
  rfl

theorem serviceOnceRxGrams_single {s : St} {src : String} {g : Bytes}
    {rest : List Bytes} (hr : s.rxgs = [(src, g :: rest)])
    (hd : (bytesDecode g).isSome) :
    serviceOnceRxGrams s = (.ok !rest.isEmpty,
      { s with rxms := s.rxms ++ [(decodeStr g, src)],
               rxgs := if rest.isEmpty then [] else [(src, rest)] }) := by
  have hq : dictGet s.rxgs src = some (g :: rest) := by
    rw [hr]
    simp [dictGet]
  have hp := procSrc_consq hq (bytesDecode_isSome hd)
  have hdel : dictDel s.rxgs src = [] := by
    rw [hr]
    simp [dictDel]
  have hset : dictSet s.rxgs src rest = [(src, rest)] := by
    rw [hr]
    simp [dictSet]
  rw [hdel, hset] at hp
  unfold serviceOnceRxGrams
  rw [hr]
  dsimp only [List.map]
  simp only [rxPassGo, hp]
  by_cases hre : rest.isEmpty
  · simp [hre]
  · simp [hre]

theorem serviceRxGrams_drive (gs : List Bytes) (src : String) :
    ∀ s : St, (∀ g ∈ gs, (bytesDecode g).isSome) → s.rxgs = [(src, gs)] →
      serviceRxGrams s
        = (.ok (),
           { s with rxgs := [], rxms := s.rxms ++ gs.map (fun g => (decodeStr g, src)) }) := by
  induction gs with
  | nil =>
      intro s hd hr
      have h0 := serviceOnceRxGrams_emptyq hr
      rw [serviceRxGrams_step_false (by simp [hr]) h0]
      simp
  | cons g rest ih =>
      intro s hd hr
      have h1 := serviceOnceRxGrams_single hr (hd g (by simp))
      by_cases hre : rest.isEmpty
      · have hrn : rest = [] := by
          cases rest
          · rfl
          · simp at hre
        subst hrn
        simp only [List.isEmpty_nil, Bool.not_true, if_pos] at h1
        rw [serviceRxGrams_step_false (by simp [hr]) h1]
        simp
      · have hb : (!rest.isEmpty) = true := by simp [hre]
        rw [hb, if_neg hre] at h1
        rw [serviceRxGrams_step_true (by simp [hr]) h1]
        rw [ih _ (fun g2 hg2 => hd g2 (by simp [hg2])) rfl]
        simp

theorem serviceRxMemos_drive (ms : List (String × String)) :
    ∀ s : St, s.rxms = ms → serviceRxMemos s = { s with rxms := [] } := by
  induction ms with
  | nil =>
      intro s hs
      rw [serviceRxMemos]
      split
      · rw [← hs]
      · next heq =>
          rw [hs] at heq
          simp at heq
  | cons p rest ih =>
      intro s hs
      rw [serviceRxMemos]
      split
      · next heq =>
          rw [hs] at heq
          simp at heq
      · next x rest2 heq =>
          rw [hs] at heq
          injection heq with heq1 heq2
          subst heq2
          rw [ih _ rfl]

theorem serviceOneReceived_consEmpty {s : St} {src : String}
    {rest : List (Bytes × String)} (hq : s.recvq = ([], src) :: rest) :
    serviceOneReceived s = (false, { s with recvq := rest }) := by
  unfold serviceOneReceived
  rw [hq]
  simp

/-- Claim C9: after enqueueing memo a to x then memo b to y, greedy
segmentation followed by greedy transmission over a transport that
always sends fully leaves the Gram Transmit Queue empty and the
Transmit Buffer idle, with exactly two sends in enqueue order. -/
theorem claim9_two_memos_in_order :
    ((serviceTxGrams behAll (serviceTxMemos
        (memoit bStr yStr (memoit aStr xStr (openTransport (construct [])))))).2.txgs
      = [])
    ∧ ((serviceTxGrams behAll (serviceTxMemos
        (memoit bStr yStr (memoit aStr xStr (openTransport (construct [])))))).2.txbs
      = ([], none))
    ∧ ((serviceTxGrams behAll (serviceTxMemos
        (memoit bStr yStr (memoit aStr xStr (openTransport (construct [])))))).2.sendlog
      = [(strEncode aStr, xStr), (strEncode bStr, yStr)]) := by
  rw [serviceTxMemos_drive [(aStr, xStr), (bStr, yStr)] _ rfl]
  rw [serviceTxGrams_driveAll [(aStr, xStr), (bStr, yStr)] _ rfl rfl rfl]
  exact ⟨rfl, rfl, rfl⟩

/-- Claim C3 (amended to non-empty memos): the loopback round trip
reproduces exactly the pair `(M, D)` in the Memo Receive Queue. -/
theorem claim3_roundtrip (M D : String) (h : M ≠ emptyStr) :
    (loopbackRun M D).rxms = [(M, D)] := by
  unfold loopbackRun
  rw [serviceTxMemos_drive [(M, D)] _ rfl]
  rw [serviceTxGrams_driveAll [(M, D)] _ rfl rfl rfl]
  dsimp only
  rw [serviceReceives_drive0 [strEncode M] D _ rfl
        (by intro g hg; rw [List.mem_singleton] at hg; subst hg; exact strEncode_ne_nil h)
        (by simp [memoit, openTransport, construct]) rfl]
  rw [serviceRxGrams_drive [strEncode M] D _
        (by intro g hg
            rw [List.mem_singleton] at hg
            subst hg
            rw [bytesDecode_strEncode]
            rfl)
        (by simp)]
  simp [decodeStr_strEncode, memoit, openTransport, construct]

/-- Witness for claim C3 at the memo a and destination x. -/
theorem claim3_roundtrip_witness :
    (loopbackRun aStr xStr).rxms = [(aStr, xStr)] :=
  claim3_roundtrip aStr xStr (by decide)

/-- Counterexample for claim C3 as stated: the 0-byte memo is lost
because its only gram is empty and an empty received gram is treated
as the no-data sentinel, so the Memo Receive Queue ends empty instead
of containing the pair (empty memo, x). -/
theorem loopback_empty_general {s : St} {src : String} (hop : s.opened = true)
    (hq : s.recvq = [([], src)]) (hr : s.rxgs = []) (hm : s.rxms = []) :
    (serviceRxGrams (serviceReceives s)).2.rxms = [] := by
  have h0 := @serviceOneReceived_consEmpty _ _ [] hq
  rw [serviceReceives_step_false hop h0]
  rw [serviceRxGrams, dif_neg (by simp [hr])]
  exact hm

theorem claim3_counterexample :
    (loopbackRun emptyStr xStr).rxms = [] := by
  unfold loopbackRun
  rw [serviceTxMemos_drive [(emptyStr, xStr)] _ rfl]
  rw [serviceTxGrams_driveAll [(emptyStr, xStr)] _ rfl rfl rfl]
  dsimp only
  exact @loopback_empty_general _ xStr (by decide) (by decide) (by decide) (by decide)

/-- Claim C7 (amended): starting from N non-empty decodable queued
datagrams from one source, greedy receive then greedy reassembly
leaves the Memo Receive Queue holding exactly the N decoded memos
(one gram, one memo, in order) and the Gram Receive Store empty; the
final greedy memo drain of serviceAllRx then consumes them all. -/
theorem claim7_greedy_receive (gs : List Bytes) (src : String) (h1 : gs ≠ [])
    (h2 : ∀ g ∈ gs, g ≠ [] ∧ (bytesDecode g).isSome) :
    ((serviceRxGrams (serviceReceives (openTransport
        (construct (gs.map (fun g => (g, src))))))).2.rxms
      = gs.map (fun g => (decodeStr g, src)))
    ∧ ((serviceRxGrams (serviceReceives (openTransport
        (construct (gs.map (fun g => (g, src))))))).2.rxgs = [])
    ∧ (serviceRxMemos ((serviceRxGrams (serviceReceives (openTransport
        (construct (gs.map (fun g => (g, src))))))).2)).rxms = [] := by
  rw [serviceReceives_drive0 gs src _ rfl (fun g hg => (h2 g hg).1) rfl rfl]
  rw [if_neg (by simp [h1])]
  rw [serviceRxGrams_drive gs src _ (fun g hg => (h2 g hg).2) rfl]
  refine ⟨by simp [openTransport, construct], rfl, ?_⟩
  rw [serviceRxMemos_drive _ _ rfl]

/-- Witness for claim C7 with two one-byte datagrams from source s. -/
theorem claim7_greedy_receive_witness :
    ((serviceRxGrams (serviceReceives (openTransport
        (construct ([[97], [98]].map (fun g => (g, sStr))))))).2.rxms
      = [[97], [98]].map (fun g => (decodeStr g, sStr)))
    ∧ ((serviceRxGrams (serviceReceives (openTransport
        (construct ([[97], [98]].map (fun g => (g, sStr))))))).2.rxgs = [])
    ∧ (serviceRxMemos ((serviceRxGrams (serviceReceives (openTransport
        (construct ([[97], [98]].map (fun g => (g, sStr))))))).2)).rxms = [] :=
  claim7_greedy_receive [[97], [98]] sStr (by decide) (by decide)

/-- Counterexample for claim C7 as stated: the greedy receive-side
composite serviceAllRx ends with the greedy memo drain, so after one
queued datagram the Memo Receive Queue is empty, not of length one. -/
theorem claim7_counterexample :
    ((serviceAllRx (openTransport (construct [([97], sStr)]))).1
        = Except.ok ())
    ∧ ((serviceAllRx (openTransport (construct [([97], sStr)]))).2.rxms = [])
    ∧ ((serviceAllRx (openTransport (construct [([97], sStr)]))).2.rxms.length
        ≠ 1) := by
  unfold serviceAllRx
  dsimp only
  rw [serviceReceives_drive0 [[97]] sStr _ rfl (by decide) rfl rfl]
  rw [if_neg (by decide)]
  rw [serviceRxGrams_drive [[97]] sStr _ (by decide) rfl]
  dsimp only
  rw [serviceRxMemos_drive _ _ rfl]
  exact ⟨rfl, rfl, by decide⟩

theorem serviceOnceTxGrams_partial {beh : Nat → SendBeh} {s : St}
    (m d : String) (rest : List (PyData × String)) (c : Nat)
    (hb : s.txbs.2 = none) (hg : s.txgs = (PyData.str m, d) :: rest)
    (hbeh : beh s.sendn = .sent c) (hc : c < (strEncode m).length) :
    serviceOnceTxGrams beh s = (.ok false,
      { s with txgs := rest, txbs := ((strEncode m).drop c, some d),
               sendn := s.sendn + 1,
               sendlog := s.sendlog ++ [(strEncode m, d)] }) := by
  unfold serviceOnceTxGrams
  rw [hb, hg]
  dsimp only
  simp only [pyEncode]
  unfold txSendPart sendStep
  dsimp only
  rw [hbeh]
  dsimp only
  unfold txFinish
  rw [if_neg (by simp only [List.isEmpty_iff, List.drop_eq_nil_iff]; omega)]

/-- Claim C8: with an empty Gram Transmit Queue the greedy transmit
service returns immediately leaving the state (hence the send log)
unchanged; and when the transport reports a partial count strictly
below the loaded gram's length, the greedy service stops after that
one send with the buffer holding exactly the unsent suffix for the
same destination. -/
theorem claim8_backpressure :
    (∀ (beh : Nat → SendBeh) (s : St), s.txgs = [] →
        serviceTxGrams beh s = (.ok (), s))
    ∧ (∀ (beh : Nat → SendBeh) (s : St) (m d : String)
          (rest : List (PyData × String)) (c : Nat),
        s.opened = true → s.txbs.2 = none →
        s.txgs = (PyData.str m, d) :: rest →
        beh s.sendn = .sent c → c < (strEncode m).length →
        serviceTxGrams beh s = (.ok (),
          { s with txgs := rest, txbs := ((strEncode m).drop c, some d),
                   sendn := s.sendn + 1,
                   sendlog := s.sendlog ++ [(strEncode m, d)] })) := by
  constructor
  · intro beh s h
    rw [serviceTxGrams, dif_neg (by simp [h])]
  · intro beh s m d rest c hop hb hg hbeh hc
    have honce := serviceOnceTxGrams_partial m d rest c hb hg hbeh hc
    rw [serviceTxGrams_step_false ⟨hop, by simp [hg]⟩ honce]

/-- Witness for claim C8: queue empty at an open idle engine, and a
transport that reports zero bytes sent on a one-byte gram. -/
theorem claim8_backpressure_witness :
    (serviceTxGrams behAll (openTransport (construct []))
      = (.ok (), openTransport (construct [])))
    ∧ (serviceTxGrams (fun _ => SendBeh.sent 0)
        { openTransport (construct []) with txgs := [(PyData.str aStr, xStr)] }
      = (.ok (),
         { openTransport (construct []) with
             txgs := [], txbs := ((strEncode aStr).drop 0, some xStr), sendn := 1,
             sendlog := [(strEncode aStr, xStr)] })) := by
  constructor
  · exact claim8_backpressure.1 behAll _ rfl
  · have h := claim8_backpressure.2 (fun _ => SendBeh.sent 0)
      { openTransport (construct []) with txgs := [(PyData.str aStr, xStr)] }
      aStr xStr [] 0 rfl rfl rfl rfl (by decide)
    simpa using h

/-- Claim C10: a bytes-valued gram at the head of the Gram Transmit
Queue makes the transmit pass raise AttributeError (the string encode
operation does not exist on bytes) after popping it, with no send
performed, and the once service propagates the exception. -/
theorem claim10_text_grams (beh : Nat → SendBeh) (s : St) (b : Bytes)
    (d : String) (rest : List (PyData × String)) (hb : s.txbs.2 = none)
    (hg : s.txgs = (PyData.bytes b, d) :: rest) :
    serviceOnceTxGrams beh s = (.error .attributeError, { s with txgs := rest })
    ∧ (s.opened = true →
        serviceTxGramsOnce beh s
          = (.error .attributeError, { s with txgs := rest })) := by
  have h1 : serviceOnceTxGrams beh s
      = (.error .attributeError, { s with txgs := rest }) := by
    unfold serviceOnceTxGrams
    rw [hb, hg]
    rfl
  refine ⟨h1, fun hop => ?_⟩
  unfold serviceTxGramsOnce
  rw [if_pos ⟨hop, by simp [hg]⟩]
  split
  · next e s2 heq =>
      rw [h1] at heq
      injection heq with hA hB
      injection hA with hA
      subst hA
      subst hB
      rfl
  · next s2 heq =>
      rw [h1] at heq
      injection heq with hA hB
      simp at hA

/-- Witness for claim C10: a one-byte bytes gram enqueued by gramit
on an otherwise idle open engine. -/
theorem claim10_text_grams_witness :
    (serviceOnceTxGrams behAll
        (gramit (PyData.bytes [1]) xStr (openTransport (construct [])))
      = (.error .attributeError,
         { gramit (PyData.bytes [1]) xStr (openTransport (construct []))
             with txgs := [] }))
    ∧ (serviceTxGramsOnce behAll
        (gramit (PyData.bytes [1]) xStr (openTransport (construct [])))
      = (.error .attributeError,
         { gramit (PyData.bytes [1]) xStr (openTransport (construct []))
             with txgs := [] })) := by
  have h := claim10_text_grams behAll
    (gramit (PyData.bytes [1]) xStr (openTransport (construct [])))
    [1] xStr [] rfl rfl
  exact ⟨h.1, h.2 rfl⟩

/-- Claim C1: on the failing input (open engine, one queued text gram,
transport send raising ECONNREFUSED) the transmit pass resets the
Transmit Buffer to the idle sentinel inside the error handler but then
raises UnboundLocalError (the fall-through `del gram[:cnt]` reads the
never-assigned send count) instead of returning False, and the greedy
transmit service propagates this exception. -/
theorem claim1_unreachable_unboundlocal_bug :
    (serviceOnceTxGrams behRefuse
        { openTransport (construct []) with txgs := [(PyData.str aStr, xStr)] }
      = (.error .unboundLocalError,
         { openTransport (construct []) with
             txgs := [], txbs := ([], none),
             sendn := 1, sendlog := [(strEncode aStr, xStr)] }))
    ∧ (serviceTxGrams behRefuse
        { openTransport (construct []) with txgs := [(PyData.str aStr, xStr)] }
      = (.error .unboundLocalError,
         { openTransport (construct []) with
             txgs := [], txbs := ([], none),
             sendn := 1, sendlog := [(strEncode aStr, xStr)] })) := by
  have h1 : serviceOnceTxGrams behRefuse
      { openTransport (construct []) with txgs := [(PyData.str aStr, xStr)] }
      = (.error .unboundLocalError,
         { openTransport (construct []) with
             txgs := [], txbs := ([], none),
             sendn := 1, sendlog := [(strEncode aStr, xStr)] }) := by
    rfl
  exact ⟨h1, serviceTxGrams_step_error ⟨rfl, by decide⟩ h1⟩

/-- Claim C4 (amended): with the transport closed, the receive-poll
services and the gram-transmit services are no-ops leaving the whole
state unchanged. -/
theorem claim4_gated_noops (beh : Nat → SendBeh) (s : St)
    (h : s.opened = false) :
    serviceReceivesOnce s = s ∧ serviceReceives s = s
    ∧ serviceTxGramsOnce beh s = (.ok (), s)
    ∧ serviceTxGrams beh s = (.ok (), s) := by
  refine ⟨?_, ?_, ?_, ?_⟩
  · unfold serviceReceivesOnce
    rw [if_neg (by simp [h])]
  · rw [serviceReceives, if_neg (by simp [h])]
  · unfold serviceTxGramsOnce
    rw [if_neg (by simp [h])]
  · rw [serviceTxGrams, dif_neg (by simp [h])]

/-- Witness for claim C4 at a closed freshly constructed engine. -/
theorem claim4_gated_noops_witness :
    serviceReceivesOnce (construct []) = construct []
    ∧ serviceReceives (construct []) = construct []
    ∧ serviceTxGramsOnce behAll (construct []) = (.ok (), construct [])
    ∧ serviceTxGrams behAll (construct []) = (.ok (), construct []) :=
  claim4_gated_noops behAll (construct []) rfl

/-- Counterexample for claim C4 as stated: with the transport closed,
the greedy segmentation service still moves a queued memo into the
Gram Transmit Queue, so not every service operation is gated on the
opened flag. -/
theorem claim4_counterexample :
    ({ construct [] with txms := [(aStr, xStr)] } : St).opened = false
    ∧ (serviceTxMemos { construct [] with txms := [(aStr, xStr)] }).txgs
        ≠ ({ construct [] with txms := [(aStr, xStr)] } : St).txgs := by
  refine ⟨rfl, ?_⟩
  rw [serviceTxMemos_drive [(aStr, xStr)] _ rfl]
  simp

theorem txSendPart_log (beh : Nat → SendBeh) (bs : Bytes) (d : String)
    (s : St) : (txSendPart beh bs d s).2.sendlog = s.sendlog ++ [(bs, d)] := by
  unfold txSendPart sendStep
  cases hb : beh s.sendn with
  | sentAll =>
      dsimp only
      unfold txFinish
      split <;> rfl
  | sent c =>
      dsimp only
      unfold txFinish
      split <;> rfl
  | raiseErr e =>
      dsimp only
      split <;> rfl

theorem serviceOnceTxGrams_log (beh : Nat → SendBeh) (s : St) :
    ∃ l, (serviceOnceTxGrams beh s).2.sendlog = s.sendlog ++ l := by
  unfold serviceOnceTxGrams
  cases hb : s.txbs.2 with
  | none =>
      cases hg : s.txgs with
      | nil => exact ⟨[], by simp⟩
      | cons p rest =>
          obtain ⟨g, d⟩ := p
          dsimp only
          cases he : pyEncode g with
          | error e => exact ⟨[], by simp⟩
          | ok bs =>
              refine ⟨[(bs, d)], ?_⟩
              rw [txSendPart_log]
  | some d =>
      refine ⟨[(s.txbs.1, d)], ?_⟩
      dsimp only
      rw [txSendPart_log]

theorem serviceOnceTxGrams_occupied_log {beh : Nat → SendBeh} {s : St}
    {d : String} (hb : s.txbs.2 = some d) :
    (serviceOnceTxGrams beh s).2.sendlog = s.sendlog ++ [(s.txbs.1, d)] := by
  unfold serviceOnceTxGrams
  rw [hb]
  dsimp only
  rw [txSendPart_log]

theorem serviceTxGrams_log_mono (beh : Nat → SendBeh) :
    ∀ (n : Nat) (s : St), txMeasure s ≤ n →
      ∃ l, (serviceTxGrams beh s).2.sendlog = s.sendlog ++ l := by
  intro n
  induction n with
  | zero =>
      intro s hs
      by_cases hc : s.opened = true ∧ s.txgs ≠ []
      · exfalso
        unfold txMeasure at hs
        cases hgg : s.txgs with
        | nil => exact hc.2 hgg
        | cons a b =>
            rw [hgg] at hs
            simp only [List.length_cons] at hs
            omega
      · rw [serviceTxGrams, dif_neg hc]
        exact ⟨[], by simp⟩
  | succ n ih =>
      intro s hs
      by_cases hc : s.opened = true ∧ s.txgs ≠ []
      · have hlog := serviceOnceTxGrams_log beh s
        rcases hp : serviceOnceTxGrams beh s with ⟨r, s1⟩
        rw [hp] at hlog
        obtain ⟨l0, hl0⟩ := hlog
        dsimp only at hl0
        cases r with
        | error e =>
            rw [serviceTxGrams_step_error hc hp]
            exact ⟨l0, hl0⟩
        | ok b =>
            cases b with
            | false =>
                rw [serviceTxGrams_step_false hc hp]
                exact ⟨l0, hl0⟩
            | true =>
                rw [serviceTxGrams_step_true hc hp]
                have hm := serviceOnceTxGrams_measure hp
                obtain ⟨l1, hl1⟩ := ih s1 (by omega)
                exact ⟨l0 ++ l1, by rw [hl1, hl0, List.append_assoc]⟩
      · rw [serviceTxGrams, dif_neg hc]
        exact ⟨[], by simp⟩

/-- Claim C2 (amended): a buffered unsent remainder is retried (its
bytes and destination are the next send attempt) by both gram-transmit
services when the Gram Transmit Queue is non-empty; but when the queue
is empty both services return without any send attempt, leaving the
remainder stranded in the buffer. -/
theorem claim2_remainder_send (beh : Nat → SendBeh) (s : St) (bs : Bytes)
    (d : String) :
    (s.opened = true → s.txbs = (bs, some d) → s.txgs ≠ [] →
      ((serviceTxGramsOnce beh s).2.sendlog = s.sendlog ++ [(bs, d)]
        ∧ ∃ l, (serviceTxGrams beh s).2.sendlog = s.sendlog ++ (bs, d) :: l))
    ∧ (s.txgs = [] →
        serviceTxGramsOnce beh s = (.ok (), s)
          ∧ serviceTxGrams beh s = (.ok (), s)) := by
  constructor
  · intro hop htb hne
    have hb2 : s.txbs.2 = some d := by rw [htb]
    have hocc := @serviceOnceTxGrams_occupied_log beh _ _ hb2
    rw [htb] at hocc
    constructor
    · unfold serviceTxGramsOnce
      rw [if_pos ⟨hop, hne⟩]
      rcases hp : serviceOnceTxGrams beh s with ⟨r, s1⟩
      rw [hp] at hocc
      cases r with
      | error e => simpa using hocc
      | ok b => simpa using hocc
    · rcases hp : serviceOnceTxGrams beh s with ⟨r, s1⟩
      rw [hp] at hocc
      dsimp only at hocc
      cases r with
      | error e =>
          rw [serviceTxGrams_step_error ⟨hop, hne⟩ hp]
          exact ⟨[], by simpa using hocc⟩
      | ok b =>
          cases b with
          | false =>
              rw [serviceTxGrams_step_false ⟨hop, hne⟩ hp]
              exact ⟨[], by simpa using hocc⟩
          | true =>
              rw [serviceTxGrams_step_true ⟨hop, hne⟩ hp]
              obtain ⟨l1, hl1⟩ :=
                serviceTxGrams_log_mono beh (txMeasure s1) s1 le_rfl
              refine ⟨l1, ?_⟩
              rw [hl1, hocc, List.append_assoc, List.singleton_append]
  · intro hempty
    constructor
    · unfold serviceTxGramsOnce
      rw [if_neg (by simp [hempty])]
    · rw [serviceTxGrams, dif_neg (by simp [hempty])]

/-- Witness for claim C2: an open engine with a one-byte remainder
bound for x and one queued gram behind it. -/
theorem claim2_remainder_send_witness :
    ((serviceTxGramsOnce behAll
        { openTransport (construct []) with
            txbs := ([97], some xStr),
            txgs := [(PyData.str bStr, yStr)] }).2.sendlog = [([97], xStr)])
    ∧ (∃ l, (serviceTxGrams behAll
        { openTransport (construct []) with
            txbs := ([97], some xStr),
            txgs := [(PyData.str bStr, yStr)] }).2.sendlog
          = ([97], xStr) :: l) := by
  have h := (claim2_remainder_send behAll
    { openTransport (construct []) with
        txbs := ([97], some xStr),
        txgs := [(PyData.str bStr, yStr)] } [97] xStr).1 rfl rfl (by decide)
  exact ⟨h.1, h.2⟩

/-- Counterexample for claim C2 as stated: an open engine whose buffer
holds an unsent remainder for x performs no send attempt at all under
either gram-transmit service when the Gram Transmit Queue is empty —
the state, send log included, is returned unchanged. -/
theorem claim2_counterexample :
    (({ openTransport (construct []) with
          txbs := ([97], some xStr) } : St).txbs.2 ≠ none)
    ∧ (serviceTxGrams behAll
        { openTransport (construct []) with txbs := ([97], some xStr) }
      = (.ok (), { openTransport (construct []) with txbs := ([97], some xStr) }))
    ∧ (serviceTxGramsOnce behAll
        { openTransport (construct []) with txbs := ([97], some xStr) }
      = (.ok (), { openTransport (construct []) with txbs := ([97], some xStr) }))
    ∧ (({ openTransport (construct []) with
          txbs := ([97], some xStr) } : St).sendlog = []) := by
  refine ⟨by simp, ?_, ?_, rfl⟩
  · rw [serviceTxGrams, dif_neg (by decide)]
  · unfold serviceTxGramsOnce
    rw [if_neg (by decide)]

theorem txbs_any (s' : St) : s'.txbs.2 = none ∨ ∃ d, s'.txbs.2 = some d := by
  cases h : s'.txbs.2 with
  | none => exact Or.inl rfl
  | some d => exact Or.inr ⟨d, rfl⟩

theorem TxbsOK_of_frame {s s' : St} (h1 : s'.txbs = s.txbs)
    (h2 : s.txgs <+: s'.txgs) : TxbsOK s s' := by
  refine ⟨txbs_any _, ?_, ?_⟩
  · intro d hd
    rw [h1]
    exact ⟨h2, List.suffix_refl _, Or.inl hd⟩
  · intro _
    exact Or.inl h1

theorem serviceOneReceived_txframe (s : St) :
    (serviceOneReceived s).2.txbs = s.txbs
      ∧ (serviceOneReceived s).2.txgs = s.txgs := by
  unfold serviceOneReceived
  cases s.recvq with
  | nil => exact ⟨rfl, rfl⟩
  | cons p rest =>
      obtain ⟨g, src⟩ := p
      dsimp only
      split <;> exact ⟨rfl, rfl⟩

theorem serviceReceives_txframe :
    ∀ (n : Nat) (s : St), s.recvq.length ≤ n →
      (serviceReceives s).txbs = s.txbs
        ∧ (serviceReceives s).txgs = s.txgs := by
  intro n
  induction n with
  | zero =>
      intro s hs
      by_cases hop : s.opened = true
      · have hf := serviceOneReceived_txframe s
        rcases hp : serviceOneReceived s with ⟨b, s1⟩
        rw [hp] at hf
        cases b with
        | false => rw [serviceReceives_step_false hop hp]; exact hf
        | true =>
            have := serviceOneReceived_true hp
            omega
      · rw [serviceReceives, if_neg hop]
        exact ⟨rfl, rfl⟩
  | succ n ih =>
      intro s hs
      by_cases hop : s.opened = true
      · have hf := serviceOneReceived_txframe s
        rcases hp : serviceOneReceived s with ⟨b, s1⟩
        rw [hp] at hf
        cases b with
        | false => rw [serviceReceives_step_false hop hp]; exact hf
        | true =>
            have hlt := serviceOneReceived_true hp
            rw [serviceReceives_step_true hop hp]
            have h2 := ih s1 (by omega)
            dsimp only at hf
            exact ⟨h2.1.trans hf.1, h2.2.trans hf.2⟩
      · rw [serviceReceives, if_neg hop]
        exact ⟨rfl, rfl⟩

theorem procSrc_txframe (src : String) (s : St) :
    (procSrc src s).2.txbs = s.txbs ∧ (procSrc src s).2.txgs = s.txgs := by
  unfold procSrc
  cases dictGet s.rxgs src with
  | none => exact ⟨rfl, rfl⟩
  | some q =>
      dsimp only
      rcases desegment q with ⟨r, q2⟩
      cases r with
      | error e => exact ⟨rfl, rfl⟩
      | ok memo =>
          dsimp only
          cases memo <;> (dsimp only; split <;> exact ⟨rfl, rfl⟩)

theorem rxPassGo_txframe (srcs : List String) (s : St) :
    (rxPassGo srcs s).2.txbs = s.txbs ∧ (rxPassGo srcs s).2.txgs = s.txgs := by
  induction srcs generalizing s with
  | nil => exact ⟨rfl, rfl⟩
  | cons src rest ih =>
      simp only [rxPassGo]
      have hf := procSrc_txframe src s
      rcases hp : procSrc src s with ⟨r, s1⟩
      rw [hp] at hf
      cases r with
      | error e => simpa using hf
      | ok g =>
          dsimp only
          have h2 := ih s1
          rcases hq : rxPassGo rest s1 with ⟨r2, s2⟩
          rw [hq] at h2
          cases r2 with
          | error e =>
              dsimp only at h2 hf ⊢
              exact ⟨h2.1.trans hf.1, h2.2.trans hf.2⟩
          | ok b =>
              dsimp only at h2 hf ⊢
              exact ⟨h2.1.trans hf.1, h2.2.trans hf.2⟩

theorem serviceOnceRxGrams_txframe (s : St) :
    (serviceOnceRxGrams s).2.txbs = s.txbs
      ∧ (serviceOnceRxGrams s).2.txgs = s.txgs :=
  rxPassGo_txframe _ s

theorem serviceRxGramsOnce_txframe (s : St) :
    (serviceRxGramsOnce s).2.txbs = s.txbs
      ∧ (serviceRxGramsOnce s).2.txgs = s.txgs := by
  unfold serviceRxGramsOnce
  split
  · have hf := serviceOnceRxGrams_txframe s
    rcases hp : serviceOnceRxGrams s with ⟨r, s1⟩
    rw [hp] at hf
    cases r with
    | error e => simpa using hf
    | ok b => simpa using hf
  · exact ⟨rfl, rfl⟩

theorem serviceRxGrams_txframe :
    ∀ (n : Nat) (s : St), rxMeasure s ≤ n →
      (serviceRxGrams s).2.txbs = s.txbs
        ∧ (serviceRxGrams s).2.txgs = s.txgs := by
  intro n
  induction n with
  | zero =>
      intro s hs
      by_cases hc : s.rxgs ≠ []
      · have := serviceOnceRxGrams_measure hc
        omega
      · rw [serviceRxGrams, dif_neg hc]
        exact ⟨rfl, rfl⟩
  | succ n ih =>
      intro s hs
      by_cases hc : s.rxgs ≠ []
      · have hm := serviceOnceRxGrams_measure hc
        have hf := serviceOnceRxGrams_txframe s
        rcases hp : serviceOnceRxGrams s with ⟨r, s1⟩
        rw [hp] at hf hm
        dsimp only at hf hm
        cases r with
        | error e => rw [serviceRxGrams_step_error hc hp]; exact hf
        | ok b =>
            cases b with
            | false => rw [serviceRxGrams_step_false hc hp]; exact hf
            | true =>
                rw [serviceRxGrams_step_true hc hp]
                have h2 := ih s1 (by omega)
                exact ⟨h2.1.trans hf.1, h2.2.trans hf.2⟩
      · rw [serviceRxGrams, dif_neg hc]
        exact ⟨rfl, rfl⟩

theorem serviceRxMemosOnce_txframe (s : St) :
    (serviceRxMemosOnce s).txbs = s.txbs
      ∧ (serviceRxMemosOnce s).txgs = s.txgs := by
  unfold serviceRxMemosOnce
  cases s.rxms with
  | nil => exact ⟨rfl, rfl⟩
  | cons p rest => exact ⟨rfl, rfl⟩

theorem serviceRxMemos_txframe (s : St) :
    (serviceRxMemos s).txbs = s.txbs ∧ (serviceRxMemos s).txgs = s.txgs := by
  rw [serviceRxMemos_drive s.rxms s rfl]
  exact ⟨rfl, rfl⟩

theorem serviceReceivesOnce_txframe (s : St) :
    (serviceReceivesOnce s).txbs = s.txbs
      ∧ (serviceReceivesOnce s).txgs = s.txgs := by
  unfold serviceReceivesOnce
  split
  · exact serviceOneReceived_txframe s
  · exact ⟨rfl, rfl⟩

theorem serviceAllRxOnce_txframe (s : St) :
    (serviceAllRxOnce s).2.txbs = s.txbs
      ∧ (serviceAllRxOnce s).2.txgs = s.txgs := by
  unfold serviceAllRxOnce
  dsimp only
  have h1 := serviceReceivesOnce_txframe s
  have h2 := serviceRxGramsOnce_txframe (serviceReceivesOnce s)
  rcases hq : serviceRxGramsOnce (serviceReceivesOnce s) with ⟨r, s2⟩
  rw [hq] at h2
  dsimp only at h2 ⊢
  cases r with
  | error e =>
      exact ⟨h2.1.trans h1.1, h2.2.trans h1.2⟩
  | ok u =>
      have h3 := serviceRxMemosOnce_txframe s2
      exact ⟨h3.1.trans (h2.1.trans h1.1), h3.2.trans (h2.2.trans h1.2)⟩

theorem serviceAllRx_txframe (s : St) :
    (serviceAllRx s).2.txbs = s.txbs ∧ (serviceAllRx s).2.txgs = s.txgs := by
  unfold serviceAllRx
  dsimp only
  have h1 := serviceReceives_txframe s.recvq.length s le_rfl
  have h2 := serviceRxGrams_txframe (rxMeasure (serviceReceives s))
    (serviceReceives s) le_rfl
  rcases hq : serviceRxGrams (serviceReceives s) with ⟨r, s2⟩
  rw [hq] at h2
  dsimp only at h2 ⊢
  cases r with
  | error e =>
      exact ⟨h2.1.trans h1.1, h2.2.trans h1.2⟩
  | ok u =>
      have h3 := serviceRxMemos_txframe s2
      exact ⟨h3.1.trans (h2.1.trans h1.1), h3.2.trans (h2.2.trans h1.2)⟩

theorem serviceTxMemosOnce_txframe (s : St) :
    (serviceTxMemosOnce s).txbs = s.txbs
      ∧ s.txgs <+: (serviceTxMemosOnce s).txgs := by
  unfold serviceTxMemosOnce
  cases s.txms with
  | nil => exact ⟨rfl, List.prefix_refl _⟩
  | cons p rest =>
      obtain ⟨memo, dst⟩ := p
      exact ⟨rfl, ⟨_, rfl⟩⟩

theorem serviceTxMemos_txframe (s : St) :
    (serviceTxMemos s).txbs = s.txbs
      ∧ s.txgs <+: (serviceTxMemos s).txgs := by
  rw [serviceTxMemos_drive s.txms s rfl]
  exact ⟨rfl, ⟨_, rfl⟩⟩

theorem txSendPart_txbs (beh : Nat → SendBeh) (bs : Bytes) (d : String)
    (t : St) :
    (txSendPart beh bs d t).2.txgs = t.txgs
    ∧ ((txSendPart beh bs d t).2.txbs = t.txbs
        ∨ ((txSendPart beh bs d t).2.txbs.1 <:+ bs
            ∧ ((txSendPart beh bs d t).2.txbs.2 = some d
                ∨ (txSendPart beh bs d t).2.txbs = ([], none)))) := by
  unfold txSendPart sendStep
  cases hb : beh t.sendn with
  | sentAll =>
      dsimp only
      unfold txFinish
      split
      · next h =>
          refine ⟨rfl, Or.inr ⟨List.drop_suffix _ _, Or.inr ?_⟩⟩
          rw [List.isEmpty_iff] at h
          simp [h]
      · exact ⟨rfl, Or.inr ⟨List.drop_suffix _ _, Or.inl rfl⟩⟩
  | sent c =>
      dsimp only
      unfold txFinish
      split
      · next h =>
          refine ⟨rfl, Or.inr ⟨List.drop_suffix _ _, Or.inr ?_⟩⟩
          rw [List.isEmpty_iff] at h
          simp [h]
      · exact ⟨rfl, Or.inr ⟨List.drop_suffix _ _, Or.inl rfl⟩⟩
  | raiseErr e =>
      dsimp only
      split
      · exact ⟨rfl, Or.inr ⟨List.nil_suffix, Or.inr rfl⟩⟩
      · exact ⟨rfl, Or.inl rfl⟩

theorem serviceOnceTxGrams_TxbsOK (beh : Nat → SendBeh) (s : St) :
    TxbsOK s (serviceOnceTxGrams beh s).2 := by
  refine ⟨txbs_any _, ?_, ?_⟩
  · intro d hb
    unfold serviceOnceTxGrams
    rw [hb]
    dsimp only
    have h := txSendPart_txbs beh s.txbs.1 d s
    refine ⟨?_, ?_, ?_⟩
    · rw [h.1]
    · rcases h.2 with heq | ⟨hsuf, _⟩
      · rw [heq]
      · exact hsuf
    · rcases h.2 with heq | ⟨_, hd⟩
      · rw [heq]
        exact Or.inl hb
      · exact hd
  · intro hb
    unfold serviceOnceTxGrams
    rw [hb]
    cases hg : s.txgs with
    | nil => exact Or.inl rfl
    | cons p rest =>
        obtain ⟨g, d⟩ := p
        dsimp only
        cases he : pyEncode g with
        | error e => exact Or.inl rfl
        | ok bs =>
            have h := txSendPart_txbs beh bs d { s with txgs := rest }
            rcases h.2 with heq | ⟨hsuf, hd⟩
            · exact Or.inl heq
            · refine Or.inr ⟨g, d, rest, rfl, bs, he, hsuf, ?_⟩
              rcases hd with h1 | h1
              · exact Or.inl h1
              · exact Or.inr (by rw [h1])

theorem serviceTxGramsOnce_state (beh : Nat → SendBeh) (s : St) :
    (serviceTxGramsOnce beh s).2 = (serviceOnceTxGrams beh s).2
      ∨ (serviceTxGramsOnce beh s).2 = s := by
  unfold serviceTxGramsOnce
  split
  · rcases hp : serviceOnceTxGrams beh s with ⟨r, s1⟩
    cases r with
    | error e => exact Or.inl rfl
    | ok b => exact Or.inl rfl
  · exact Or.inr rfl

/-- Claim C5: along any atomic service step from a state reachable
from construction, the transmit buffer satisfies the single in-flight
contract: its destination is the idle sentinel or exactly one
destination, an occupied buffer only drains (a suffix of the same
gram's bytes, same destination) with no gram removed from the queue,
and a new gram is loaded only from an idle buffer, as a suffix of the
head gram's encoding bound for that gram's destination. -/
theorem claim5_single_inflight (s s' : St) (hr : Reach s)
    (hstep : StepA s s') : TxbsOK s s' := by
  cases hstep with
  | opn s => exact TxbsOK_of_frame rfl (List.prefix_refl _)
  | cls s => exact TxbsOK_of_frame rfl (List.prefix_refl _)
  | memo m d s => exact TxbsOK_of_frame rfl (List.prefix_refl _)
  | gram g d s => exact TxbsOK_of_frame rfl ⟨_, rfl⟩
  | arrive g src s => exact TxbsOK_of_frame rfl (List.prefix_refl _)
  | recvOne s =>
      have h := serviceOneReceived_txframe s
      exact TxbsOK_of_frame h.1 (h.2 ▸ List.prefix_refl _)
  | recvOnce s =>
      have h := serviceReceivesOnce_txframe s
      exact TxbsOK_of_frame h.1 (h.2 ▸ List.prefix_refl _)
  | recvAll s =>
      have h := serviceReceives_txframe s.recvq.length s le_rfl
      exact TxbsOK_of_frame h.1 (h.2 ▸ List.prefix_refl _)
  | rxgOnce s =>
      have h := serviceOnceRxGrams_txframe s
      exact TxbsOK_of_frame h.1 (h.2 ▸ List.prefix_refl _)
  | rxgOnceSvc s =>
      have h := serviceRxGramsOnce_txframe s
      exact TxbsOK_of_frame h.1 (h.2 ▸ List.prefix_refl _)
  | rxgAll s =>
      have h := serviceRxGrams_txframe (rxMeasure s) s le_rfl
      exact TxbsOK_of_frame h.1 (h.2 ▸ List.prefix_refl _)
  | rxmOnce s =>
      have h := serviceRxMemosOnce_txframe s
      exact TxbsOK_of_frame h.1 (h.2 ▸ List.prefix_refl _)
  | rxmAll s =>
      have h := serviceRxMemos_txframe s
      exact TxbsOK_of_frame h.1 (h.2 ▸ List.prefix_refl _)
  | allRxOnce s =>
      have h := serviceAllRxOnce_txframe s
      exact TxbsOK_of_frame h.1 (h.2 ▸ List.prefix_refl _)
  | allRx s =>
      have h := serviceAllRx_txframe s
      exact TxbsOK_of_frame h.1 (h.2 ▸ List.prefix_refl _)
  | txmOnce s =>
      have h := serviceTxMemosOnce_txframe s
      exact TxbsOK_of_frame h.1 h.2
  | txmAll s =>
      have h := serviceTxMemos_txframe s
      exact TxbsOK_of_frame h.1 h.2
  | txgOnce beh s => exact serviceOnceTxGrams_TxbsOK beh s
  | txgOnceSvc beh s =>
      rcases serviceTxGramsOnce_state beh s with h | h
      · rw [h]
        exact serviceOnceTxGrams_TxbsOK beh s
      · rw [h]
        exact TxbsOK_of_frame rfl (List.prefix_refl _)

/-- Witness for claim C5: the freshly constructed engine is reachable
and enqueueing one memo is an atomic step satisfying the contract. -/
theorem claim5_single_inflight_witness :
    TxbsOK (construct []) (memoit aStr xStr (construct [])) :=
  claim5_single_inflight (construct []) (memoit aStr xStr (construct []))
    ⟨construct [], ⟨rfl, rfl, rfl, rfl, rfl⟩, Relation.ReflTransGen.refl⟩
    (StepA.memo aStr xStr (construct []))

/-- The content of the receive-store invariant of the claim: every
address key of `.rxgs` has a non-empty gram deque (the converse — a
deque exists only under its key — is immediate from the mapping
representation). -/
def KeyIffPending (s : St) : Prop := ∀ p ∈ s.rxgs, p.2 ≠ []

theorem dictSet_mem {α : Type} {d : List (String × α)} {k : String} {v : α}
    {p : String × α} (h : p ∈ dictSet d k v) : p ∈ d ∨ p = (k, v) := by
  induction d with
  | nil => simpa [dictSet] using h
  | cons q rest ih =>
      obtain ⟨k2, v2⟩ := q
      simp only [dictSet] at h
      by_cases hk : k2 = k
      · rw [if_pos hk] at h
        rcases List.mem_cons.mp h with h1 | h1
        · right
          rw [h1, hk]
        · left
          exact List.mem_cons_of_mem _ h1
      · rw [if_neg hk] at h
        rcases List.mem_cons.mp h with h1 | h1
        · left
          rw [h1]
          exact List.mem_cons_self _ _
        · rcases ih h1 with h2 | h2
          · left
            exact List.mem_cons_of_mem _ h2
          · right
            exact h2

theorem dictDel_mem {α : Type} {d : List (String × α)} {k : String}
    {p : String × α} (h : p ∈ dictDel d k) : p ∈ d := by
  induction d with
  | nil => simpa [dictDel] using h
  | cons q rest ih =>
      obtain ⟨k2, v2⟩ := q
      simp only [dictDel] at h
      by_cases hk : k2 = k
      · rw [if_pos hk] at h
        exact List.mem_cons_of_mem _ h
      · rw [if_neg hk] at h
        rcases List.mem_cons.mp h with h1 | h1
        · rw [h1]
          exact List.mem_cons_self _ _
        · exact List.mem_cons_of_mem _ (ih h1)

theorem rxgsAdd_mem {d : List (String × List Bytes)} {src : String}
    {g : Bytes} {p : String × List Bytes} (h : p ∈ rxgsAdd d src g) :
    p ∈ d ∨ (∃ q, dictGet d src = some q ∧ p = (src, q ++ [g]))
      ∨ p = (src, [g]) := by
  unfold rxgsAdd at h
  cases hq : dictGet d src with
  | some q =>
      rw [hq] at h
      rcases dictSet_mem h with h1 | h1
      · exact Or.inl h1
      · exact Or.inr (Or.inl ⟨q, rfl, h1⟩)
  | none =>
      rw [hq] at h
      rcases List.mem_append.mp h with h1 | h1
      · exact Or.inl h1
      · rw [List.mem_singleton] at h1
        exact Or.inr (Or.inr h1)

theorem GoodRx_serviceOneReceived {s : St} (h : GoodRx s) :
    GoodRx (serviceOneReceived s).2 := by
  obtain ⟨hst, hrq⟩ := h
  unfold serviceOneReceived
  cases hq : s.recvq with
  | nil => exact ⟨hst, hrq⟩
  | cons p rest =>
      obtain ⟨g, src⟩ := p
      dsimp only
      have hrest : ∀ p ∈ rest, (bytesDecode p.1).isSome := fun p hp =>
        hrq p (by rw [hq]; exact List.mem_cons_of_mem _ hp)
      have hg : (bytesDecode g).isSome :=
        hrq (g, src) (by rw [hq]; exact List.mem_cons_self _ _)
      split
      · exact ⟨hst, hrest⟩
      · refine ⟨?_, hrest⟩
        intro p hp
        rcases rxgsAdd_mem hp with h1 | ⟨q, hq2, h1⟩ | h1
        · exact hst p h1
        · have hq3 := hst _ (dictGet_mem hq2)
          subst h1
          refine ⟨by simp, ?_⟩
          intro g2 hg2
          rcases List.mem_append.mp hg2 with h2 | h2
          · exact hq3.2 g2 h2
          · rw [List.mem_singleton] at h2
            subst h2
            exact hg
        · subst h1
          refine ⟨by simp, ?_⟩
          intro g2 hg2
          rw [List.mem_singleton] at hg2
          subst hg2
          exact hg

theorem GoodRx_serviceReceivesOnce {s : St} (h : GoodRx s) :
    GoodRx (serviceReceivesOnce s) := by
  unfold serviceReceivesOnce
  split
  · exact GoodRx_serviceOneReceived h
  · exact h

theorem GoodRx_serviceReceives :
    ∀ (n : Nat) (s : St), s.recvq.length ≤ n → GoodRx s →
      GoodRx (serviceReceives s) := by
  intro n
  induction n with
  | zero =>
      intro s hs h
      by_cases hop : s.opened = true
      · have hf := GoodRx_serviceOneReceived h
        rcases hp : serviceOneReceived s with ⟨b, s1⟩
        rw [hp] at hf
        cases b with
        | false => rw [serviceReceives_step_false hop hp]; exact hf
        | true =>
            have := serviceOneReceived_true hp
            omega
      · rw [serviceReceives, if_neg hop]
        exact h
  | succ n ih =>
      intro s hs h
      by_cases hop : s.opened = true
      · have hf := GoodRx_serviceOneReceived h
        rcases hp : serviceOneReceived s with ⟨b, s1⟩
        rw [hp] at hf
        cases b with
        | false => rw [serviceReceives_step_false hop hp]; exact hf
        | true =>
            have hlt := serviceOneReceived_true hp
            rw [serviceReceives_step_true hop hp]
            exact ih s1 (by omega) hf
      · rw [serviceReceives, if_neg hop]
        exact h

theorem GoodRx_procSrc {s : St} (src : String) (h : GoodRx s) :
    GoodRx (procSrc src s).2 := by
  obtain ⟨hst, hrq⟩ := h
  unfold procSrc
  cases hq : dictGet s.rxgs src with
  | none => exact ⟨hst, hrq⟩
  | some q =>
      dsimp only
      have hqm := hst _ (dictGet_mem hq)
      cases hqq : q with
      | nil => exact absurd hqq hqm.1
      | cons g rest =>
          have hg : (bytesDecode g).isSome :=
            hqm.2 g (by rw [hqq]; exact List.mem_cons_self _ _)
          have hdec := bytesDecode_isSome hg
          simp only [desegment, hdec]
          split
          · refine ⟨?_, hrq⟩
            intro p hp
            exact hst p (dictDel_mem hp)
          · next hre =>
              refine ⟨?_, hrq⟩
              intro p hp
              rcases dictSet_mem hp with h1 | h1
              · exact hst p h1
              · subst h1
                refine ⟨by simpa using hre, ?_⟩
                intro g2 hg2
                exact hqm.2 g2 (by rw [hqq]; exact List.mem_cons_of_mem _ hg2)

theorem GoodRx_rxPassGo (srcs : List String) :
    ∀ s : St, GoodRx s → GoodRx (rxPassGo srcs s).2 := by
  induction srcs with
  | nil => exact fun s h => h
  | cons src rest ih =>
      intro s h
      simp only [rxPassGo]
      have h1 := GoodRx_procSrc src h
      rcases hp : procSrc src s with ⟨r, s1⟩
      rw [hp] at h1
      cases r with
      | error e => exact h1
      | ok g =>
          dsimp only
          have h2 := ih s1 h1
          rcases hq : rxPassGo rest s1 with ⟨r2, s2⟩
          rw [hq] at h2
          cases r2 with
          | error e => exact h2
          | ok b => exact h2

theorem GoodRx_serviceOnceRxGrams {s : St} (h : GoodRx s) :
    GoodRx (serviceOnceRxGrams s).2 :=
  GoodRx_rxPassGo _ s h

theorem GoodRx_serviceRxGramsOnce {s : St} (h : GoodRx s) :
    GoodRx (serviceRxGramsOnce s).2 := by
  unfold serviceRxGramsOnce
  split
  · have h1 := GoodRx_serviceOnceRxGrams h
    rcases hp : serviceOnceRxGrams s with ⟨r, s1⟩
    rw [hp] at h1
    cases r with
    | error e => exact h1
    | ok b => exact h1
  · exact h

theorem GoodRx_serviceRxGrams :
    ∀ (n : Nat) (s : St), rxMeasure s ≤ n → GoodRx s →
      GoodRx (serviceRxGrams s).2 := by
  intro n
  induction n with
  | zero =>
      intro s hs h
      by_cases hc : s.rxgs ≠ []
      · have := serviceOnceRxGrams_measure hc
        omega
      · rw [serviceRxGrams, dif_neg hc]
        exact h
  | succ n ih =>
      intro s hs h
      by_cases hc : s.rxgs ≠ []
      · have hm := serviceOnceRxGrams_measure hc
        have h1 := GoodRx_serviceOnceRxGrams h
        rcases hp : serviceOnceRxGrams s with ⟨r, s1⟩
        rw [hp] at h1 hm
        dsimp only at hm
        cases r with
        | error e => rw [serviceRxGrams_step_error hc hp]; exact h1
        | ok b =>
            cases b with
            | false => rw [serviceRxGrams_step_false hc hp]; exact h1
            | true =>
                rw [serviceRxGrams_step_true hc hp]
                exact ih s1 (by omega) h1
      · rw [serviceRxGrams, dif_neg hc]
        exact h

theorem GoodRx_serviceRxMemosOnce {s : St} (h : GoodRx s) :
    GoodRx (serviceRxMemosOnce s) := by
  unfold serviceRxMemosOnce
  cases s.rxms with
  | nil => exact h
  | cons p rest => exact h

theorem GoodRx_serviceRxMemos {s : St} (h : GoodRx s) :
    GoodRx (serviceRxMemos s) := by
  rw [serviceRxMemos_drive s.rxms s rfl]
  exact h

theorem GoodRx_serviceAllRxOnce {s : St} (h : GoodRx s) :
    GoodRx (serviceAllRxOnce s).2 := by
  unfold serviceAllRxOnce
  dsimp only
  have h1 := GoodRx_serviceReceivesOnce h
  have h2 := GoodRx_serviceRxGramsOnce h1
  rcases hq : serviceRxGramsOnce (serviceReceivesOnce s) with ⟨r, s2⟩
  rw [hq] at h2
  cases r with
  | error e => exact h2
  | ok u => exact GoodRx_serviceRxMemosOnce h2

theorem GoodRx_serviceAllRx {s : St} (h : GoodRx s) :
    GoodRx (serviceAllRx s).2 := by
  unfold serviceAllRx
  dsimp only
  have h1 := GoodRx_serviceReceives s.recvq.length s le_rfl h
  have h2 := GoodRx_serviceRxGrams (rxMeasure (serviceReceives s))
    (serviceReceives s) le_rfl h1
  rcases hq : serviceRxGrams (serviceReceives s) with ⟨r, s2⟩
  rw [hq] at h2
  cases r with
  | error e => exact h2
  | ok u => exact GoodRx_serviceRxMemos h2

theorem GoodRx_step {s s' : St} (h : GoodRx s) (hstep : StepRx s s') :
    GoodRx s' := by
  cases hstep with
  | arrive g src t hdec =>
      obtain ⟨hst, hrq⟩ := h
      refine ⟨hst, ?_⟩
      intro p hp
      rcases List.mem_append.mp hp with h1 | h1
      · exact hrq p h1
      · rw [List.mem_singleton] at h1
        subst h1
        exact hdec
  | recvOne t => exact GoodRx_serviceOneReceived h
  | recvOnce t => exact GoodRx_serviceReceivesOnce h
  | recvAll t => exact GoodRx_serviceReceives s.recvq.length s le_rfl h
  | rxgOnce t => exact GoodRx_serviceOnceRxGrams h
  | rxgOnceSvc t => exact GoodRx_serviceRxGramsOnce h
  | rxgAll t => exact GoodRx_serviceRxGrams (rxMeasure s) s le_rfl h
  | rxmOnce t => exact GoodRx_serviceRxMemosOnce h
  | rxmAll t => exact GoodRx_serviceRxMemos h
  | allRxOnce t => exact GoodRx_serviceAllRxOnce h
  | allRx t => exact GoodRx_serviceAllRx h

/-- Claim C6 (amended to decodable datagrams): in every state
reachable from construction by receive-side service operations over
decodable datagrams, every address key of the Gram Receive Store has
a non-empty deque — a key is removed in the same pass in which its
deque drains, and only gram arrival re-creates it. -/
theorem claim6_key_iff_pending (s : St) (h : ReachRx s) :
    KeyIffPending s := by
  obtain ⟨s0, h0, hq0, hsteps⟩ := h
  have hg : GoodRx s := by
    induction hsteps with
    | refl =>
        refine ⟨?_, hq0⟩
        intro p hp
        rw [h0] at hp
        cases hp
    | tail hab hbc ih => exact GoodRx_step ih hbc
  exact fun p hp => (hg.1 p hp).1

/-- Witness for claim C6: one decodable datagram received from s into
the store of a freshly opened engine. -/
theorem claim6_key_iff_pending_witness :
    KeyIffPending (serviceReceives (openTransport (construct [([97], sStr)]))) :=
  claim6_key_iff_pending _
    ⟨openTransport (construct [([97], sStr)]), rfl, by decide,
     Relation.ReflTransGen.single (StepRx.recvAll _)⟩

/-- Counterexample for claim C6 as stated: receiving one undecodable
datagram and running the greedy reassembly service leaves the source
key in the Gram Receive Store with an empty deque — the decode
exception propagates after the gram was popped and before the drained
key could be deleted. -/
theorem claim6_counterexample :
    ((serviceRxGrams (serviceReceives (openTransport
        (construct [([55296], sStr)])))).2.rxgs = [(sStr, [])])
    ∧ ¬ KeyIffPending ((serviceRxGrams (serviceReceives (openTransport
        (construct [([55296], sStr)])))).2) := by
  have hrecv : serviceReceives (openTransport (construct [([55296], sStr)]))
      = { openTransport (construct [([55296], sStr)]) with
            recvq := [], rxgs := [(sStr, [[55296]])] } := by
    rw [serviceReceives_drive0 [[55296]] sStr _ rfl (by decide) rfl rfl]
    decide
  have honce : serviceOnceRxGrams
      { openTransport (construct [([55296], sStr)]) with
          recvq := [], rxgs := [(sStr, [[55296]])] }
      = (.error .unicodeDecodeError,
         { openTransport (construct [([55296], sStr)]) with
             recvq := [], rxgs := [(sStr, [])] }) := by
    rfl
  have hrx : (serviceRxGrams (serviceReceives (openTransport
      (construct [([55296], sStr)])))).2.rxgs = [(sStr, [])] := by
    rw [hrecv, serviceRxGrams_step_error (by decide) honce]
  refine ⟨hrx, ?_⟩
  intro hk
  have h2 := hk (sStr, []) (by rw [hrx]; exact List.mem_singleton.mpr rfl)
  exact h2 rfl

end Memoing
